import Mathlib

/-!
Formal model of the temporal record-linkage utilities of this repository
(src/utils.py): the Latest-Value Attacher add_latest_entry_before_date and
the Latest-Diagnosis Attacher add_latest_diagnosis_entry.

DataFrames are modelled as a column schema (names with dtypes) together
with rows given as association lists from column name to cell value.
Parsed datetimes are held as their YYYYMMDD numeral: for valid calendar
dates numeral order coincides with chronological order, so the `<`
comparison and idxmax of the source are translated directly.  Fallible
pandas operations (missing columns, malformed date strings) live in an
Except monad; KeyError carries the missing column name, exactly at the
points where the source indexes a column.
-/

namespace TFM

/-- Cell values: numeric cells (pandas int/float), string cells, parsed
datetime cells, and the missing value (NaN/NaT). -/
inductive Value where
  | na : Value
  | int : Int → Value
  | str : String → Value
  | date : Nat → Value
deriving DecidableEq, Repr

/-- Column dtypes, as far as the two operations inspect them:
pd.api.types.is_numeric_dtype distinguishes numeric columns from object
(text) and datetime64 columns. -/
inductive DType where
  | numeric : DType
  | text : DType
  | dt : DType
deriving DecidableEq, Repr

/-- Errors raised by the two operations: a missing-column access
(pandas KeyError, carrying the requested label) and a date-parsing
failure of pd.to_datetime with format %Y%m%d. -/
inductive Err where
  | keyError : String → Err
  | parseError : Err
deriving DecidableEq, Repr

/-- A row: association list from column name to cell value.  Lookup takes
the first matching entry, as pandas label lookup does for the first of
duplicated labels. -/
abbrev Row := List (String × Value)

/-- First-match association lookup, shared by rows and column schemas. -/
def alookup {α : Type} : List (String × α) → String → Option α
  | [], _ => none
  | p :: ps, c => if p.1 = c then some p.2 else alookup ps c

@[simp] theorem alookup_nil {α : Type} (c : String) : alookup ([] : List (String × α)) c = none := rfl

@[simp] theorem alookup_cons {α : Type} (p : String × α) (ps : List (String × α)) (c : String) :
    alookup (p :: ps) c = if p.1 = c then some p.2 else alookup ps c := rfl

/-- Cell access in a row.  Missing keys read as NaN; the embedding checks
column presence separately wherever the source's column access could
raise KeyError, so this default is only exercised on checked rows. -/
def getV (r : Row) (c : String) : Value := (alookup r c).getD Value.na

/-- A DataFrame: named, typed columns and a list of rows. -/
structure DF where
  cols : List (String × DType)
  rows : List Row
deriving DecidableEq, Repr

/-- Column labels of a frame, in order. -/
def DF.colNames (df : DF) : List String := df.cols.map (fun p => p.1)

/-- Column-presence test (df.columns membership). -/
def DF.hasCol (df : DF) (c : String) : Bool := df.colNames.contains c

/-- Dtype of a column (first match among possibly duplicated labels). -/
def DF.dtypeOf (df : DF) (c : String) : Option DType := alookup df.cols c

/-- Keys of a row, in order. -/
def rowKeys (r : Row) : List String := r.map (fun p => p.1)

/-- Well-formedness: every row carries exactly the frame's columns,
in order.  Frames built by pandas satisfy this; the general theorems
assume it of the caller-supplied tables and the stage lemmas propagate it. -/
def WF (df : DF) : Prop := ∀ r ∈ df.rows, rowKeys r = df.colNames

instance (df : DF) : Decidable (WF df) := by
  unfold WF
  infer_instance

/-! ### Date parsing: pd.to_datetime(col.astype(str), format=%Y%m%d) -/

/-- Gregorian leap-year test. -/
def isLeap (y : Nat) : Bool := (y % 4 == 0 && y % 100 != 0) || y % 400 == 0

/-- Days in a month. -/
def daysInMonth (y m : Nat) : Nat :=
  if m = 2 then (if isLeap y then 29 else 28)
  else if m = 4 ∨ m = 6 ∨ m = 9 ∨ m = 11 then 30
  else 31

/-- The numeral spelled by a list of decimal digit characters. -/
def digitsToNat (cs : List Char) : Nat :=
  cs.foldl (fun n ch => n * 10 + (ch.toNat - 48)) 0

/-- Parse an 8-digit YYYYMMDD string into its numeral, validating the
calendar date as pd.to_datetime with format %Y%m%d does; any other shape
fails. -/
def parseYYYYMMDD (s : String) : Option Nat :=
  if s.data.length = 8 ∧ s.data.all (fun ch => ch.isDigit) then
    let n := digitsToNat s.data
    let m := n / 100 % 100
    let d := n % 100
    if 1 ≤ m ∧ m ≤ 12 ∧ 1 ≤ d ∧ d ≤ daysInMonth (n / 10000) m then some n else none
  else none

/-- astype(str) on a cell: ints print their decimal digits, strings stay,
NaN prints as a non-date string, and an already-parsed datetime prints in
dashed ISO form (never 8 plain digits, so re-parsing it fails, as it does
for str(Timestamp) in pandas). -/
def astypeStr : Value → String
  | Value.na => "nan"
  | Value.int i => toString i
  | Value.str s => s
  | Value.date d =>
      toString (d / 10000) ++ "-" ++ toString (d / 100 % 100) ++ "-" ++ toString (d % 100) ++ " 00:00:00"

/-- Parse one cell of the date column. -/
def parseCell (v : Value) : Option Value := (parseYYYYMMDD (astypeStr v)).map Value.date

/-- Overwrite the value at an existing key of a row (column assignment). -/
def setCol (r : Row) (c : String) (v : Value) : Row :=
  r.map (fun p => if p.1 = c then (p.1, v) else p)

/-- Parse the date cell of one row, in place. -/
def parseRowDate (c : String) (r : Row) : Option Row :=
  (parseCell (getV r c)).map (fun v => setCol r c v)

/-- Parse the date column of every row; the whole call fails if any cell
does (pd.to_datetime raises on the first malformed value). -/
def parseRows (c : String) : List Row → Option (List Row)
  | [] => some []
  | r :: rs =>
    match parseRowDate c r, parseRows c rs with
    | some r2, some rs2 => some (r2 :: rs2)
    | _, _ => none

/-- df[c] = pd.to_datetime(df[c].astype(str), format=%Y%m%d): KeyError on
a missing column, parseError on a malformed cell, otherwise the column is
replaced by parsed datetimes and its dtype becomes datetime64. -/
def parseDateCol (df : DF) (c : String) : Except Err DF :=
  if df.hasCol c then
    match parseRows c df.rows with
    | some rs => .ok ⟨df.cols.map (fun p => if p.1 = c then (p.1, DType.dt) else p), rs⟩
    | none => .error .parseError
  else .error (.keyError c)

/-! ### Column selection, merging, filtering, grouping -/

/-- df[[c1, ..., ck]]: KeyError on the first missing label, otherwise the
subframe with exactly those columns, every row re-keyed in that order. -/
def selectCols (df : DF) (cs : List String) : Except Err DF :=
  match cs.find? (fun c => !(df.hasCol c)) with
  | some c => .error (.keyError c)
  | none =>
    .ok ⟨cs.map (fun c => (c, (df.dtypeOf c).getD DType.text)),
         df.rows.map (fun r => cs.map (fun c => (c, getV r c)))⟩

/-- Rename every key of an association list through f. -/
def renamePairs {α : Type} (f : String → String) (l : List (String × α)) : List (String × α) :=
  l.map (fun p => (f p.1, p.2))

/-- Suffix a name iff it belongs to the overlap set (pandas merge
suffixing). -/
def suffixName (ovl : List String) (sfx : String) (c : String) : String :=
  if ovl.contains c then c ++ sfx else c

/-- Key pairs (left key, right key) whose two names coincide are carried
as one unsuffixed column by pandas merge; with on=k both keys are k. -/
def collapsedKeys (lks rks : List String) : List String :=
  (lks.zip rks).filterMap (fun p => if p.1 = p.2 then some p.1 else none)

/-- Names occurring in both frames that are not collapsed keys; these get
the _x/_y suffixes. -/
def mergeOverlap (l r : DF) (lks rks : List String) : List String :=
  (l.colNames.filter (fun c => r.colNames.contains c)).filter
    (fun c => !((collapsedKeys lks rks).contains c))

/-- Row-level key match of a left row against a right row. -/
def keyMatch (lks rks : List String) (lr rr : Row) : Bool :=
  (lks.zip rks).all (fun p => getV lr p.1 == getV rr p.2)

/-- Drop the entries at the given keys. -/
def dropKeys {α : Type} (ks : List String) (l : List (String × α)) : List (String × α) :=
  l.filter (fun p => !(ks.contains p.1))

/-- The all-NaN right part a left row is padded with when it has no match
in a left merge. -/
def mergePad (ovl coll : List String) (rcols : List (String × DType)) : Row :=
  (dropKeys coll rcols).map (fun p => (suffixName ovl "_y" p.1, Value.na))

/-- Rows a single left row contributes to a left merge: one combined row
per matching right row, or one NaN-padded row if there is none. -/
def mergeRowsFor (ovl coll : List String) (lks rks : List String)
    (rrows : List Row) (rcols : List (String × DType)) (lr : Row) : List Row :=
  match rrows.filter (fun rr => keyMatch lks rks lr rr) with
  | [] => [renamePairs (suffixName ovl "_x") lr ++ mergePad ovl coll rcols]
  | ms => ms.map (fun rr =>
      renamePairs (suffixName ovl "_x") lr ++ renamePairs (suffixName ovl "_y") (dropKeys coll rr))

/-- left.merge(right, left_on=lks, right_on=rks, how=left): KeyError on a
missing key column; otherwise left columns (suffixed _x on overlap), then
right columns minus collapsed keys (suffixed _y on overlap), with rows in
left order, each left row repeated per matching right row or NaN-padded. -/
def mergeLR (l r : DF) (lks rks : List String) : Except Err DF :=
  match lks.find? (fun c => !(l.hasCol c)) with
  | some c => .error (.keyError c)
  | none =>
    match rks.find? (fun c => !(r.hasCol c)) with
    | some c => .error (.keyError c)
    | none =>
      .ok ⟨renamePairs (suffixName (mergeOverlap l r lks rks) "_x") l.cols ++
             renamePairs (suffixName (mergeOverlap l r lks rks) "_y")
               (dropKeys (collapsedKeys lks rks) r.cols),
           l.rows.flatMap
             (mergeRowsFor (mergeOverlap l r lks rks) (collapsedKeys lks rks) lks rks r.rows r.cols)⟩

/-- left.merge(right, on=k, how=left). -/
def mergeOn (l r : DF) (k : String) : Except Err DF := mergeLR l r [k] [k]

/-- Elementwise comparison of two cells as pandas compares a datetime64
column against a date-typed reference column: only two dates compare,
and any comparison involving NaT/NaN is False. -/
def ltV : Value → Value → Bool
  | Value.date a, Value.date b => decide (a < b)
  | _, _ => false

/-- df[df[c1] < df[c2]]: KeyError mirrors the evaluation order of the
source (inner df[c1] is read first). -/
def filterLtCol (df : DF) (c1 c2 : String) : Except Err DF :=
  if df.hasCol c1 then
    if df.hasCol c2 then
      .ok ⟨df.cols, df.rows.filter (fun r => ltV (getV r c1) (getV r c2))⟩
    else .error (.keyError c2)
  else .error (.keyError c1)

/-- Group keys of the rows under two key columns, NaN keys dropped
(groupby default); deduplicated.  Group-key order differs from pandas
(which sorts keys) but every downstream use is order-insensitive because
each key yields exactly one selected row. -/
def keysOf (rows : List Row) (k1 k2 : String) : List (Value × Value) :=
  ((rows.filter (fun r => !(getV r k1 == Value.na) && !(getV r k2 == Value.na))).map
    (fun r => (getV r k1, getV r k2))).dedup

/-- The rows of one group, in original order. -/
def groupRows (rows : List Row) (k1 k2 : String) (k : Value × Value) : List Row :=
  rows.filter (fun r => getV r k1 == k.1 && getV r k2 == k.2)

/-- One step of the idxmax scan: combine the head row with the best row
of the tail, keeping the head on ties so that the first occurrence of
the maximum wins, as pandas idxmax does. -/
def maxStep (vc : String) (a : Row) : Option Row → Option Row
  | none => some a
  | some b => if ltV (getV a vc) (getV b vc) then some b else some a

/-- Series.idxmax over the vc cells of a list of rows: the first row
attaining the maximal value (pandas idxmax returns the first occurrence
of the maximum). -/
def idxmaxRow (vc : String) : List Row → Option Row
  | [] => none
  | r :: rs => maxStep vc r (idxmaxRow vc rs)

/-- df.loc[df.groupby([k1, k2])[vc].idxmax()]: one row per group, the
first one attaining the group's maximal vc value. -/
def groupLatestRows (rows : List Row) (k1 k2 vc : String) : List Row :=
  (keysOf rows k1 k2).filterMap (fun k => idxmaxRow vc (groupRows rows k1 k2 k))

/-- The grouping step of both operations, with the column accesses the
source makes. -/
def groupIdxmax (df : DF) (k1 k2 vc : String) : Except Err DF :=
  if df.hasCol k1 then
    if df.hasCol k2 then
      if df.hasCol vc then .ok ⟨df.cols, groupLatestRows df.rows k1 k2 vc⟩
      else .error (.keyError vc)
    else .error (.keyError k2)
  else .error (.keyError k1)

/-- Apply a rename mapping to one name (df.rename semantics: mapped if
listed, otherwise unchanged). -/
def renUpd (m : List (String × String)) (c : String) : String := (alookup m c).getD c

/-- df.rename(columns=m): renames labels in the schema and in every row. -/
def renameCols (df : DF) (m : List (String × String)) : DF :=
  ⟨renamePairs (renUpd m) df.cols, df.rows.map (renamePairs (renUpd m))⟩

/-- The non-negativity test v >= 0 of the numeric branch: true only on a
non-negative numeric cell; NaN compares False and is dropped too. -/
def geZero : Value → Bool
  | Value.int i => decide (0 ≤ i)
  | _ => false

/-- The numeric branch of the Latest-Value Attacher: if the result
column's dtype is numeric, keep only rows whose value is >= 0; on any
other dtype the frame passes through.  Reading the column's dtype
raises KeyError if the label is absent. -/
def applyNumericFilter (df : DF) (c : String) : Except Err DF :=
  if df.hasCol c then
    if df.dtypeOf c = some DType.numeric then
      .ok ⟨df.cols, df.rows.filter (fun r => geZero (getV r c))⟩
    else .ok df
  else .error (.keyError c)

/-- df.drop(columns=[c]): KeyError if absent, otherwise the label is
removed from the schema and from every row. -/
def dropColumn (df : DF) (c : String) : Except Err DF :=
  if df.hasCol c then
    .ok ⟨df.cols.filter (fun p => !(p.1 = c)),
         df.rows.map (fun r => r.filter (fun p => !(p.1 = c)))⟩
  else .error (.keyError c)

/-- The final missing-value report reads df[c].isna(): KeyError if the
result column is absent, otherwise only a side effect. -/
def checkCol (df : DF) (c : String) : Except Err Unit :=
  if df.hasCol c then .ok () else .error (.keyError c)

/-! ### The two operations -/

/-- Explicit Except sequencing (the straight-line control flow of the
source: any raised error aborts the call). -/
def eb {α β : Type} (x : Except Err α) (f : α → Except Err β) : Except Err β :=
  match x with
  | .error e => .error e
  | .ok a => f a

@[simp] theorem eb_ok {α β : Type} (a : α) (f : α → Except Err β) : eb (.ok a) f = f a := rfl

@[simp] theorem eb_error {α β : Type} (e : Err) (f : α → Except Err β) :
    eb (.error e) f = .error e := rfl

/-- Stages shared by both operations, lines 30-42 resp. 119-131 of
src/utils.py: select the id, a and b columns of the prepared source,
left-merge onto the target by id, and keep joined rows whose source date
(column dcol, suffixed _y by the merge) is strictly before the target's
reference date (column rdc, suffixed _x).  For the Latest-Value Attacher
(a, b, dcol) = (source_date_col, value_col, source_date_col); for the
Latest-Diagnosis Attacher (a, b, dcol) = (code_col, date_col, date_col). -/
def tjValid (goal src : DF) (idc a b dcol rdc : String) : Except Err DF :=
  eb (selectCols src [idc, a, b]) (fun sel =>
    eb (mergeOn goal sel idc) (fun help =>
      filterLtCol help (dcol ++ "_y") (rdc ++ "_x")))

/-- Lines 40-48 resp. 129-133: select the latest row per (id, reference
date) group and rename the merged reference-date column to ref_date and
the carried column ycol to the result column name. -/
def tjLatest (goal src : DF) (idc a b dcol rdc ycol rescol : String) : Except Err DF :=
  eb (tjValid goal src idc a b dcol rdc) (fun valid =>
    eb (groupIdxmax valid idc (rdc ++ "_x") (dcol ++ "_y")) (fun latest0 =>
      .ok (renameCols latest0 [(rdc ++ "_x", "ref_date"), (ycol, rescol)])))

/-- Lines 58-63 resp. 136-141: merge the selected latest rows back onto
the target by (id, reference date) and drop the helper ref_date column. -/
def tjFinish (goal latest : DF) (idc rdc rescol : String) : Except Err DF :=
  eb (selectCols latest [idc, "ref_date", rescol]) (fun sel2 =>
    eb (mergeLR goal sel2 [idc, rdc] [idc, "ref_date"]) (fun merged =>
      dropColumn merged "ref_date"))

/-- add_latest_entry_before_date(goal_df, data_df, source_date_col,
reference_date_col, value_col, result_col_name, id_col): the Latest-Value
Attacher of src/utils.py.  result_col_name None defaults to value_col
(line 22-23); the source date column is parsed (line 26-27); then the
shared temporal-join stages run with the numeric non-negativity filter
applied between latest-selection and the final merge (lines 50-55), and
the closing report reads the result column (line 66). -/
def add_latest_entry_before_date (goal data : DF) (sdc rdc vc : String)
    (rcn : Option String) (idc : String) : Except Err DF :=
  let rescol := rcn.getD vc
  eb (parseDateCol data sdc) (fun parsed =>
    eb (tjLatest goal parsed idc sdc vc sdc rdc vc rescol) (fun latest1 =>
      eb (applyNumericFilter latest1 rescol) (fun latest2 =>
        eb (tjFinish goal latest2 idc rdc rescol) (fun updated =>
          eb (checkCol updated rescol) (fun _ => .ok updated)))))

/-! ### Diagnosis-code matching -/

/-- The Unicode decimal-digit codepoint ranges (category Nd): exactly
the characters the class \d matches in Python 3 re on str patterns. -/
def ndRanges : List (Nat × Nat) :=
  [(0x30, 0x39), (0x660, 0x669), (0x6F0, 0x6F9), (0x7C0, 0x7C9),
   (0x966, 0x96F), (0x9E6, 0x9EF), (0xA66, 0xA6F), (0xAE6, 0xAEF),
   (0xB66, 0xB6F), (0xBE6, 0xBEF), (0xC66, 0xC6F), (0xCE6, 0xCEF),
   (0xD66, 0xD6F), (0xDE6, 0xDEF), (0xE50, 0xE59), (0xED0, 0xED9),
   (0xF20, 0xF29), (0x1040, 0x1049), (0x1090, 0x1099), (0x17E0, 0x17E9),
   (0x1810, 0x1819), (0x1946, 0x194F), (0x19D0, 0x19D9), (0x1A80, 0x1A89),
   (0x1A90, 0x1A99), (0x1B50, 0x1B59), (0x1BB0, 0x1BB9), (0x1C40, 0x1C49),
   (0x1C50, 0x1C59), (0xA620, 0xA629), (0xA8D0, 0xA8D9), (0xA900, 0xA909),
   (0xA9D0, 0xA9D9), (0xA9F0, 0xA9F9), (0xAA50, 0xAA59), (0xABF0, 0xABF9),
   (0xFF10, 0xFF19), (0x104A0, 0x104A9), (0x10D30, 0x10D39), (0x11066, 0x1106F),
   (0x110F0, 0x110F9), (0x11136, 0x1113F), (0x111D0, 0x111D9), (0x112F0, 0x112F9),
   (0x11450, 0x11459), (0x114D0, 0x114D9), (0x11650, 0x11659), (0x116C0, 0x116C9),
   (0x11730, 0x11739), (0x118E0, 0x118E9), (0x11950, 0x11959), (0x11C50, 0x11C59),
   (0x11D50, 0x11D59), (0x11DA0, 0x11DA9), (0x16A60, 0x16A69), (0x16AC0, 0x16AC9),
   (0x16B50, 0x16B59), (0x1D7CE, 0x1D7FF), (0x1E140, 0x1E149), (0x1E2F0, 0x1E2F9),
   (0x1E950, 0x1E959), (0x1FBF0, 0x1FBF9)]

/-- \d of line 109: any Unicode decimal digit, not only 0-9. -/
def ndDigit (c : Char) : Bool :=
  ndRanges.any (fun r => decide (r.1 ≤ c.toNat) && decide (c.toNat ≤ r.2))

/-- The regex metacharacters of Python re, by codepoint:
. ^ $ * + ? braces, brackets, backslash, bar and parentheses. -/
def reMetaChar (c : Char) : Bool :=
  ([46, 94, 36, 42, 43, 63, 123, 125, 91, 93, 92, 124, 40, 41] : List Nat).contains c.toNat

/-- A root whose only regex metacharacter is the decimal point: under
this shape the matcher below reproduces Python re exactly — every other
root character is literal and the dot is the any-character-but-newline
wildcard.  ICD roots have this shape. -/
def literalOrDot (root : String) : Bool :=
  root.data.all (fun c => c = '.' || !(reMetaChar c))

/-- One root-pattern position against one code character: the dot
matches any character except the newline, anything else only itself. -/
def charMatch (p c : Char) : Bool := if p = '.' then !(c = '\n') else p = c

/-- Consume the interpolated root against the front of the code: each
root position matches exactly one code character, so the root consumes
exactly its own length and the remainder is returned (none on a failed
position or a too-short code). -/
def rootConsume : List Char → List Char → Option (List Char)
  | [], rest => some rest
  | _ :: _, [] => none
  | p :: ps, c :: cs => if charMatch p c then rootConsume ps cs else none

/-- \d+$ — one or more Unicode digits up to the $ anchor, which in
Python re matches at the end of the string or just before one newline
that ends the string. -/
def digitsTail : List Char → Bool
  | [] => false
  | c :: cs => ndDigit c && (cs == ([] : List Char) || cs == ['\n'] || digitsTail cs)

/-- (?:\.\d+)?$ applied to what remains of the code after the root. -/
def tailEnd : List Char → Bool
  | [] => true
  | c :: cs => (c == '\n' && cs == ([] : List Char)) || (c == '.' && digitsTail cs)

/-- Root matching: re.search of the pattern ^root(?:\.\d+)?$ built on
line 109, applied to a code.  The anchored root consumes the code from
the start (dots as wildcards, other characters literal — exact for
roots whose only metacharacter is the dot), optionally followed by a
decimal point and one or more Unicode decimal digits; the $ anchor also
accepts one trailing newline. -/
def rootMatch (root code : String) : Bool :=
  match rootConsume root.data code.data with
  | some rest => tailEnd rest
  | none => false

/-- The selection mask of lines 102-110 on one cell of the code column:
isin(fixed_codes) or str.contains of the root pattern for some root.
Non-string and missing cells never match (isin finds no equal string;
str.contains maps them to NaN and na=False reads that as False). -/
def maskVal (fixed roots : List String) : Value → Bool
  | Value.str s => fixed.contains s || roots.any (fun rt => rootMatch rt s)
  | _ => false

/-- Lines 101-116: build the mask (the code column is only read when
fixed_codes or code_roots is non-empty, so only then can its absence
raise KeyError), restrict the diagnostics to matched rows, and overwrite
the code column of every matched row with the constant marker "1",
making its dtype object; df.loc[:, c] = "1" creates the column when it
is absent (reachable only with both code lists empty, hence no rows). -/
def matchedStage (diag : DF) (ccol : String) (fixed roots : List String) : Except Err DF :=
  if (fixed.isEmpty && roots.isEmpty) || diag.hasCol ccol then
    .ok ⟨if diag.hasCol ccol then
           diag.cols.map (fun p => if p.1 = ccol then (p.1, DType.text) else p)
         else diag.cols ++ [(ccol, DType.text)],
         (diag.rows.filter (fun r => maskVal fixed roots (getV r ccol))).map
           (fun r => setCol r ccol (Value.str "1"))⟩
  else .error (.keyError ccol)

/-- Line 144: replace(regex ^\s*$ -> NaN) on one cell — an empty or
whitespace-only string becomes missing, everything else is unchanged. -/
def blankToNa : Value → Value
  | Value.str s => if s.all (fun ch => ch.isWhitespace) then Value.na else Value.str s
  | v => v

/-- updated_df[c] = updated_df[c].replace(^\s*$, NaN, regex=True):
KeyError if the column is absent. -/
def replaceBlankCol (df : DF) (c : String) : Except Err DF :=
  if df.hasCol c then
    .ok ⟨df.cols, df.rows.map (fun r => r.map (fun p => if p.1 = c then (p.1, blankToNa p.2) else p))⟩
  else .error (.keyError c)

/-- add_latest_diagnosis_entry(goal_df, diagnostics_df, code_col,
date_col, fixed_codes, code_roots, reference_date_col, result_col_name,
id_col): the Latest-Diagnosis Attacher of src/utils.py (defaults at the
call site: rdc = t0, rescol = diagnosis, idc = idp; fixed_codes and
code_roots default to None, modelled as the empty list, which Python
truthiness treats identically).  Dates are parsed (lines 98-99), codes
matched and marked (101-116), the shared temporal-join stages run
(119-133), the latest markers are merged back (136-141), blank strings
become missing (144), and the report reads the result column (147). -/
def add_latest_diagnosis_entry (goal diag : DF) (ccol dcol : String)
    (fixed roots : List String) (rdc rescol idc : String) : Except Err DF :=
  eb (parseDateCol diag dcol) (fun parsed =>
    eb (matchedStage parsed ccol fixed roots) (fun matched =>
      eb (tjLatest goal matched idc ccol dcol dcol rdc ccol rescol) (fun latest =>
        eb (tjFinish goal latest idc rdc rescol) (fun updated0 =>
          eb (replaceBlankCol updated0 rescol) (fun updated =>
            eb (checkCol updated rescol) (fun _ => .ok updated))))))

/-! ### Explicit-state versions for the frame claim

The only mutation either operation performs is the in-place assignment
of the parsed date column, and it is preceded by .copy() (lines 26-27
and 98-99).  To make that observable, a store of DataFrame objects is
threaded explicitly: the caller's tables are references into the store,
.copy() allocates a fresh reference, and the column assignment writes
through the fresh reference only.  The result value is computed exactly
as in the pure functions above. -/

/-- A heap of DataFrame objects; references are indices. -/
abbrev Store := List DF

/-- The copy-then-mutate prefix both operations share: df.copy()
allocates a fresh store entry holding the source table, and the in-place
date-column assignment writes the parsed frame through that fresh
reference only (or, if parsing raises, leaves the fresh copy as
allocated).  The rest of the operation is the pure computation given by
rest. -/
def copyParseWrite (σ : Store) (data : DF) (dcol : String)
    (rest : DF → Except Err DF) : Store × Except Err DF :=
  match parseDateCol data dcol with
  | .error e => (σ ++ [data], .error e)
  | .ok parsed => ((σ ++ [data]).set σ.length parsed, rest parsed)

/-- The Latest-Value Attacher acting on caller-held references goalR and
dataR into the store: read both tables, copy the source (fresh
reference), parse the copy's date column in place, then compute the
result purely.  The returned store reflects every mutation performed. -/
def add_latest_entry_before_date_st (σ : Store) (goalR dataR : Nat) (sdc rdc vc : String)
    (rcn : Option String) (idc : String) : Store × Except Err DF :=
  match σ[goalR]?, σ[dataR]? with
  | some goal, some data =>
    copyParseWrite σ data sdc (fun parsed =>
      eb (tjLatest goal parsed idc sdc vc sdc rdc vc (rcn.getD vc)) (fun latest1 =>
        eb (applyNumericFilter latest1 (rcn.getD vc)) (fun latest2 =>
          eb (tjFinish goal latest2 idc rdc (rcn.getD vc)) (fun updated =>
            eb (checkCol updated (rcn.getD vc)) (fun _ => .ok updated)))))
  | _, _ => (σ, .error (.keyError "dataframe"))

/-- The Latest-Diagnosis Attacher on store references, mirroring lines
98-99: the diagnostics table is copied, the copy's date column is parsed
in place, and everything else is pure. -/
def add_latest_diagnosis_entry_st (σ : Store) (goalR diagR : Nat) (ccol dcol : String)
    (fixed roots : List String) (rdc rescol idc : String) : Store × Except Err DF :=
  match σ[goalR]?, σ[diagR]? with
  | some goal, some diag =>
    copyParseWrite σ diag dcol (fun parsed =>
      eb (matchedStage parsed ccol fixed roots) (fun matched =>
        eb (tjLatest goal matched idc ccol dcol dcol rdc ccol rescol) (fun latest =>
          eb (tjFinish goal latest idc rdc rescol) (fun updated0 =>
            eb (replaceBlankCol updated0 rescol) (fun updated =>
              eb (checkCol updated rescol) (fun _ => .ok updated))))))
  | _, _ => (σ, .error (.keyError "dataframe"))

/-! ### Lookup lemmas -/

theorem alookup_append_of_eq_none {α : Type} {a : List (String × α)} (b : List (String × α))
    {c : String} (h : alookup a c = none) : alookup (a ++ b) c = alookup b c := by
  induction a with
  | nil => simp
  | cons p ps ih =>
    by_cases hp : p.1 = c
    · simp [hp] at h
    · simp only [List.cons_append, alookup_cons, hp, if_false] at h ⊢
      exact ih h

theorem alookup_append_of_eq_some {α : Type} {a : List (String × α)} (b : List (String × α))
    {c : String} {v : α} (h : alookup a c = some v) : alookup (a ++ b) c = some v := by
  induction a with
  | nil => simp at h
  | cons p ps ih =>
    by_cases hp : p.1 = c
    · simp only [alookup_cons, hp, if_true] at h
      simp [hp, h]
    · simp only [List.cons_append, alookup_cons, hp, if_false] at h ⊢
      exact ih h

theorem alookup_eq_none_iff {α : Type} (l : List (String × α)) (c : String) :
    alookup l c = none ↔ c ∉ l.map (fun p => p.1) := by
  induction l with
  | nil => simp
  | cons p ps ih =>
    simp only [alookup_cons, List.map_cons, List.mem_cons, not_or]
    by_cases hp : p.1 = c
    · simp [hp]
    · have hcp : ¬c = p.1 := fun hh => hp hh.symm
      simp only [hp, if_false, ih, hcp, not_false_iff, true_and]

theorem getV_append_of_not_mem {a b : Row} {c : String} (h : c ∉ rowKeys a) :
    getV (a ++ b) c = getV b c := by
  unfold getV
  rw [alookup_append_of_eq_none b ((alookup_eq_none_iff a c).mpr h)]

theorem getV_append_of_mem {a : Row} (b : Row) {c : String} (h : c ∈ rowKeys a) :
    getV (a ++ b) c = getV a c := by
  unfold getV
  cases ha : alookup a c with
  | none => exact absurd ((alookup_eq_none_iff a c).mp ha) (by simpa [rowKeys] using h)
  | some v => rw [alookup_append_of_eq_some b ha]

theorem alookup_renamePairs {α : Type} {f : String → String} {l : List (String × α)}
    {src tgt : String} (h : ∀ k ∈ l.map (fun p => p.1), (f k = tgt ↔ k = src)) :
    alookup (renamePairs f l) tgt = alookup l src := by
  induction l with
  | nil => rfl
  | cons p ps ih =>
    have hp := h p.1 (by simp)
    simp only [renamePairs, List.map_cons, alookup_cons]
    by_cases hf : f p.1 = tgt
    · rw [if_pos hf, if_pos (hp.mp hf)]
    · rw [if_neg hf, if_neg (fun hh => hf (hp.mpr hh))]
      exact ih (fun k hk => h k (by simp [hk]))

theorem getV_renamePairs {f : String → String} {r : Row} {src tgt : String}
    (h : ∀ k ∈ rowKeys r, (f k = tgt ↔ k = src)) :
    getV (renamePairs f r) tgt = getV r src := by
  unfold getV
  rw [alookup_renamePairs h]

@[simp] theorem rowKeys_append (a b : Row) : rowKeys (a ++ b) = rowKeys a ++ rowKeys b :=
  List.map_append _ _ _

theorem rowKeys_renamePairs (f : String → String) (r : Row) :
    rowKeys (renamePairs f r) = (rowKeys r).map f := by
  simp [rowKeys, renamePairs, List.map_map]

theorem rowKeys_setCol (r : Row) (c : String) (v : Value) :
    rowKeys (setCol r c v) = rowKeys r := by
  induction r with
  | nil => rfl
  | cons p ps ih =>
    simp only [setCol, List.map_cons, rowKeys] at ih ⊢
    rw [ih]
    by_cases hp : p.1 = c
    · rw [if_pos hp]
    · rw [if_neg hp]

theorem getV_setCol_ne (r : Row) {c c2 : String} (h : c ≠ c2) (v : Value) :
    getV (setCol r c v) c2 = getV r c2 := by
  induction r with
  | nil => rfl
  | cons p ps ih =>
    have hkey : (if p.1 = c then (p.1, v) else p).1 = p.1 := by split <;> rfl
    unfold getV at ih ⊢
    simp only [setCol, List.map_cons, alookup_cons, hkey] at ih ⊢
    by_cases hp2 : p.1 = c2
    · rw [if_pos hp2, if_pos hp2]
      have hpc : ¬p.1 = c := fun hh => h (by rw [← hh, hp2])
      rw [if_neg hpc]
    · rw [if_neg hp2, if_neg hp2]
      exact ih

theorem getV_keyedRow (r : Row) {cs : List String} {c : String} (h : c ∈ cs) :
    getV (cs.map (fun x => (x, getV r x))) c = getV r c := by
  induction cs with
  | nil => simp at h
  | cons x t ih =>
    by_cases hx : x = c
    · simp [getV, hx]
    · have : c ∈ t := by
        rcases List.mem_cons.mp h with hh | hh
        · exact absurd hh.symm hx
        · exact hh
      simpa [getV, hx] using ih this

theorem getV_keyedRow_not_mem (r : Row) {cs : List String} {c : String} (h : c ∉ cs) :
    getV (cs.map (fun x => (x, getV r x))) c = Value.na := by
  have hn : alookup (cs.map (fun x => (x, getV r x))) c = none := by
    rw [alookup_eq_none_iff]
    simp only [List.map_map]
    intro hc
    exact h (by simpa using hc)
  show (alookup (cs.map (fun x => (x, getV r x))) c).getD Value.na = Value.na
  rw [hn]
  rfl

/-! ### idxmax lemmas -/

theorem ltV_irrefl (v : Value) : ltV v v = false := by
  cases v <;> simp [ltV]

theorem ltV_asymm {a b : Value} (h : ltV a b = true) : ltV b a = false := by
  cases a <;> cases b <;> simp [ltV] at h ⊢
  omega

theorem idxmaxRow_eq_none_iff (vc : String) (l : List Row) :
    idxmaxRow vc l = none ↔ l = [] := by
  cases l with
  | nil => simp [idxmaxRow]
  | cons a t =>
    cases ht : idxmaxRow vc t with
    | none => simp [idxmaxRow, ht, maxStep]
    | some b =>
      simp only [idxmaxRow, ht, maxStep]
      split <;> simp

theorem idxmaxRow_mem {vc : String} {l : List Row} {r : Row}
    (h : idxmaxRow vc l = some r) : r ∈ l := by
  induction l generalizing r with
  | nil => simp [idxmaxRow] at h
  | cons a t ih =>
    cases ht : idxmaxRow vc t with
    | none =>
      simp only [idxmaxRow, ht, maxStep, Option.some.injEq] at h
      subst h
      exact List.mem_cons_self a t
    | some b =>
      simp only [idxmaxRow, ht, maxStep] at h
      split at h
      · simp only [Option.some.injEq] at h
        subst h
        exact List.mem_cons_of_mem a (ih ht)
      · simp only [Option.some.injEq] at h
        subst h
        exact List.mem_cons_self a t

theorem idxmaxRow_not_lt {vc : String} {l : List Row} {r : Row}
    (hdates : ∀ x ∈ l, ∃ d, getV x vc = Value.date d)
    (h : idxmaxRow vc l = some r) :
    ∀ x ∈ l, ltV (getV r vc) (getV x vc) = false := by
  induction l generalizing r with
  | nil => simp [idxmaxRow] at h
  | cons a t ih =>
    intro x hx
    cases ht : idxmaxRow vc t with
    | none =>
      simp only [idxmaxRow, ht, maxStep, Option.some.injEq] at h
      subst h
      have hnil : t = [] := (idxmaxRow_eq_none_iff vc t).mp ht
      subst hnil
      rcases List.mem_singleton.mp hx with rfl
      exact ltV_irrefl _
    | some b =>
      simp only [idxmaxRow, ht, maxStep] at h
      have hdt : ∀ y ∈ t, ∃ d, getV y vc = Value.date d :=
        fun y hy => hdates y (List.mem_cons_of_mem a hy)
      split at h
      · rename_i hab
        simp only [Option.some.injEq] at h
        subst h
        rcases List.mem_cons.mp hx with rfl | hxt
        · exact ltV_asymm hab
        · exact ih hdt ht x hxt
      · rename_i hab
        simp only [Option.some.injEq] at h
        subst h
        rcases List.mem_cons.mp hx with rfl | hxt
        · exact ltV_irrefl _
        · obtain ⟨da, hda⟩ := hdates a (List.mem_cons_self a t)
          obtain ⟨db, hdb⟩ := hdt b (idxmaxRow_mem ht)
          obtain ⟨dx, hdx⟩ := hdates x (List.mem_cons_of_mem a hxt)
          have hbx := ih hdt ht x hxt
          rw [hda, hdb] at hab
          rw [hdb, hdx] at hbx
          rw [hda, hdx]
          simp only [ltV, decide_eq_true_eq, decide_eq_false_iff_not] at hab hbx ⊢
          omega

theorem idxmaxRow_first {vc : String} {l : List Row} {r : Row}
    (hdates : ∀ x ∈ l, ∃ d, getV x vc = Value.date d)
    (h : idxmaxRow vc l = some r) :
    l.find? (fun x => getV x vc == getV r vc) = some r := by
  induction l generalizing r with
  | nil => simp [idxmaxRow] at h
  | cons a t ih =>
    cases ht : idxmaxRow vc t with
    | none =>
      simp only [idxmaxRow, ht, maxStep, Option.some.injEq] at h
      subst h
      simp [List.find?_cons]
    | some b =>
      simp only [idxmaxRow, ht, maxStep] at h
      have hdt : ∀ y ∈ t, ∃ d, getV y vc = Value.date d :=
        fun y hy => hdates y (List.mem_cons_of_mem a hy)
      split at h
      · rename_i hab
        simp only [Option.some.injEq] at h
        subst h
        have hne : (getV a vc == getV b vc) = false := by
          obtain ⟨da, hda⟩ := hdates a (List.mem_cons_self a t)
          obtain ⟨db, hdb⟩ := hdt b (idxmaxRow_mem ht)
          rw [hda, hdb] at hab ⊢
          simp only [ltV, decide_eq_true_eq] at hab
          simp only [beq_eq_false_iff_ne, ne_eq, Value.date.injEq]
          omega
        rw [List.find?_cons, hne]
        exact ih hdt ht
      · simp only [Option.some.injEq] at h
        subst h
        simp [List.find?_cons]

/-! ### Group lemmas -/

theorem mem_groupRows {rows : List Row} {k1 k2 : String} {k : Value × Value} {r : Row} :
    r ∈ groupRows rows k1 k2 k ↔ r ∈ rows ∧ getV r k1 = k.1 ∧ getV r k2 = k.2 := by
  simp [groupRows, List.mem_filter]

theorem keysOf_nodup (rows : List Row) (k1 k2 : String) : (keysOf rows k1 k2).Nodup :=
  List.nodup_dedup _

theorem groupLatestRows_mem {rows : List Row} {k1 k2 vc : String} {r : Row}
    (h : r ∈ groupLatestRows rows k1 k2 vc) :
    ∃ k, k ∈ keysOf rows k1 k2 ∧ idxmaxRow vc (groupRows rows k1 k2 k) = some r := by
  simpa [groupLatestRows, List.mem_filterMap] using h

theorem groupLatestRows_sub {rows : List Row} {k1 k2 vc : String} {r : Row}
    (h : r ∈ groupLatestRows rows k1 k2 vc) : r ∈ rows := by
  obtain ⟨k, _, hk⟩ := groupLatestRows_mem h
  exact (mem_groupRows.mp (idxmaxRow_mem hk)).1

theorem filterMap_pairwise_ne {β γ : Type} {ks : List γ} {f : γ → Option β} {g : β → γ}
    (hnd : ks.Nodup) (hg : ∀ k r, f k = some r → g r = k) :
    (ks.filterMap f).Pairwise (fun a b => g a ≠ g b) := by
  induction ks with
  | nil => simp
  | cons k t ih =>
    rw [List.filterMap_cons]
    cases hf : f k with
    | none => exact ih (List.nodup_cons.mp hnd).2
    | some r =>
      refine List.Pairwise.cons ?_ (ih (List.nodup_cons.mp hnd).2)
      intro b hb
      obtain ⟨k2, hk2, hfk2⟩ := List.mem_filterMap.mp hb
      rw [hg k r hf, hg k2 b hfk2]
      exact fun hh => (List.nodup_cons.mp hnd).1 (hh ▸ hk2)

theorem groupLatestRows_pairwise (rows : List Row) (k1 k2 vc : String) :
    (groupLatestRows rows k1 k2 vc).Pairwise
      (fun a b => (getV a k1, getV a k2) ≠ (getV b k1, getV b k2)) := by
  apply filterMap_pairwise_ne (keysOf_nodup rows k1 k2)
  intro k r hf
  have hmem := mem_groupRows.mp (idxmaxRow_mem hf)
  exact Prod.ext hmem.2.1 hmem.2.2

/-! ### Counting lemmas -/

theorem flatMap_length_one {α β : Type} {l : List α} {f : α → List β}
    (h : ∀ a ∈ l, (f a).length = 1) : (l.flatMap f).length = l.length := by
  induction l with
  | nil => rfl
  | cons a t ih =>
    simp only [List.flatMap_cons, List.length_append, h a (List.mem_cons_self a t),
      ih (fun x hx => h x (List.mem_cons_of_mem a hx)), List.length_cons]
    omega

theorem filter_le_one_of_pairwise {α γ : Type} {l : List α} {g : α → γ} {p : α → Bool}
    (hpw : l.Pairwise (fun a b => g a ≠ g b)) {K : γ} (hp : ∀ a, p a = true → g a = K) :
    (l.filter p).length ≤ 1 := by
  induction l with
  | nil => simp
  | cons a t ih =>
    rw [List.filter_cons]
    by_cases hpa : p a = true
    · have hnil : t.filter p = [] := by
        rw [List.filter_eq_nil_iff]
        intro b hb hpb
        exact (List.pairwise_cons.mp hpw).1 b hb (by rw [hp a hpa, hp b hpb])
      simp [hpa, hnil]
    · simp only [hpa, Bool.false_eq_true, if_false]
      exact ih (List.pairwise_cons.mp hpw).2

theorem mergeRowsFor_length {ovl coll lks rks : List String} {rrows : List Row}
    {rcols : List (String × DType)} {lr : Row}
    (h : (rrows.filter (fun rr => keyMatch lks rks lr rr)).length ≤ 1) :
    (mergeRowsFor ovl coll lks rks rrows rcols lr).length = 1 := by
  unfold mergeRowsFor
  cases hm : rrows.filter (fun rr => keyMatch lks rks lr rr) with
  | nil => rfl
  | cons m ms =>
    rw [hm] at h
    simp only [List.length_cons] at h
    have : ms = [] := List.length_eq_zero.mp (by omega)
    subst this
    rfl

/-! ### Concrete scenario frames -/

/-- Target table of the scenario in the testable properties: one subject,
reference date 2020-01-10 held date-typed in column t0. -/
def scenarioGoal : DF :=
  ⟨[("idp", DType.numeric), ("t0", DType.dt)],
   [[("idp", Value.int 1), ("t0", Value.date 20200110)]]⟩

/-- Source table of the scenario: an earlier valid value 5 (2020-01-01)
and a later negative value -2 (2020-01-05).  The source date column must
carry the same name as the target's reference column (here t0) for the
operation's suffixed-column accesses to exist; see the schema-coupling
theorem. -/
def scenarioData : DF :=
  ⟨[("idp", DType.numeric), ("t0", DType.text), ("val", DType.numeric)],
   [[("idp", Value.int 1), ("t0", Value.str "20200101"), ("val", Value.int 5)],
    [("idp", Value.int 1), ("t0", Value.str "20200105"), ("val", Value.int (-2))]]⟩

/-- The same source without the negative later row: shows the earlier
row is eligible on its own, so the missing result with the full source
is the absence of fallback, not ineligibility. -/
def scenarioDataValidOnly : DF :=
  ⟨[("idp", DType.numeric), ("t0", DType.text), ("val", DType.numeric)],
   [[("idp", Value.int 1), ("t0", Value.str "20200101"), ("val", Value.int 5)]]⟩

/-- C10: neither operation modifies a caller-supplied table.  With the
object store made explicit, the source/diagnostics frame is copied (a
fresh reference) before its date column is parsed, the parsed column is
written through the fresh reference only, and the target frame is never
written; so every store entry that existed before either call still
holds the same frame afterwards — also on calls that fail. -/
theorem copyParseWrite_preserves (σ : Store) (data : DF) (dcol : String)
    (rest : DF → Except Err DF) (i : Nat) (hi : i < σ.length) :
    (copyParseWrite σ data dcol rest).1[i]? = σ[i]? := by
  unfold copyParseWrite
  cases parseDateCol data dcol with
  | error e => exact List.getElem?_append_left hi
  | ok parsed =>
    show ((σ ++ [data]).set σ.length parsed)[i]? = σ[i]?
    rw [List.getElem?_set_ne (by omega)]
    exact List.getElem?_append_left hi

/-- C10: neither operation modifies a caller-supplied table.  With the
object store made explicit, the source/diagnostics frame is copied (a
fresh reference) before its date column is parsed, the parsed column is
written through the fresh reference only, and the target frame is never
written; so every store entry that existed before either call still
holds the same frame afterwards — also on calls that fail. -/
theorem tables_not_mutated (σ : Store) (goalR dataR : Nat) (sdc rdc vc : String)
    (rcn : Option String) (idc ccol dcol rescol : String) (fixed roots : List String)
    (i : Nat) (hi : i < σ.length) :
    (add_latest_entry_before_date_st σ goalR dataR sdc rdc vc rcn idc).1[i]? = σ[i]? ∧
    (add_latest_diagnosis_entry_st σ goalR dataR ccol dcol fixed roots rdc rescol idc).1[i]? = σ[i]? := by
  constructor
  · unfold add_latest_entry_before_date_st
    cases hg : σ[goalR]? with
    | none => rfl
    | some goal =>
      cases hd : σ[dataR]? with
      | none => rfl
      | some data => exact copyParseWrite_preserves σ data sdc _ i hi
  · unfold add_latest_diagnosis_entry_st
    cases hg : σ[goalR]? with
    | none => rfl
    | some goal =>
      cases hd : σ[dataR]? with
      | none => rfl
      | some diag => exact copyParseWrite_preserves σ diag dcol _ i hi

/-- Witness for the mutation theorem: on the concrete scenario store the
first stored table (index 0, the caller's target) reads back unchanged. -/
theorem tables_not_mutated_witness :
    0 < ([scenarioGoal, scenarioData] : Store).length ∧
    (add_latest_entry_before_date_st [scenarioGoal, scenarioData] 0 1 "t0" "t0" "val"
        none "idp").1[0]? = ([scenarioGoal, scenarioData] : Store)[0]? := by
  refine ⟨by decide, ?_⟩
  exact (tables_not_mutated [scenarioGoal, scenarioData] 0 1 "t0" "t0" "val" none "idp"
    "code" "t0" "diagnosis" [] [] 0 (by decide)).1

/-! ### Code-matching characterization -/

theorem rootConsume_eq_some {ps cs rest : List Char} :
    rootConsume ps cs = some rest ↔
      ∃ stem, cs = stem ++ rest ∧ stem.length = ps.length ∧
        ∀ p ∈ ps.zip stem, charMatch p.1 p.2 = true := by
  induction ps generalizing cs with
  | nil =>
    constructor
    · intro h
      have hcs : cs = rest := by
        have h2 : some cs = some rest := h
        injection h2
      exact ⟨[], by simp [hcs], rfl, by simp⟩
    · rintro ⟨stem, heq, hlen, -⟩
      have hstem : stem = [] := List.length_eq_zero.mp hlen
      subst hstem
      simp only [List.nil_append] at heq
      rw [heq]
      rfl
  | cons p ps ih =>
    cases cs with
    | nil =>
      constructor
      · intro h
        exact Option.noConfusion h
      · rintro ⟨stem, heq, hlen, -⟩
        have h2 := congrArg List.length heq
        rw [List.length_append, hlen] at h2
        simp only [List.length_nil, List.length_cons] at h2
        omega
    | cons c cs =>
      show (if charMatch p c = true then rootConsume ps cs else none) = some rest ↔ _
      by_cases hc : charMatch p c = true
      · rw [if_pos hc, ih]
        constructor
        · rintro ⟨stem, heq, hlen, hall⟩
          refine ⟨c :: stem, by rw [heq]; rfl, by simp [hlen], ?_⟩
          intro q hq
          rw [List.zip_cons_cons] at hq
          rcases List.mem_cons.mp hq with rfl | hq2
          · exact hc
          · exact hall q hq2
        · rintro ⟨stem, heq, hlen, hall⟩
          cases stem with
          | nil =>
            simp only [List.length_nil, List.length_cons] at hlen
            omega
          | cons s0 stem =>
            simp only [List.cons_append, List.cons.injEq] at heq
            obtain ⟨rfl, heq2⟩ := heq
            refine ⟨stem, heq2, by simpa using hlen, ?_⟩
            intro q hq
            refine hall q ?_
            rw [List.zip_cons_cons]
            exact List.mem_cons_of_mem _ hq
      · rw [if_neg hc]
        constructor
        · intro h
          exact Option.noConfusion h
        · rintro ⟨stem, heq, hlen, hall⟩
          cases stem with
          | nil =>
            simp only [List.length_nil, List.length_cons] at hlen
            omega
          | cons s0 stem =>
            simp only [List.cons_append, List.cons.injEq] at heq
            obtain ⟨rfl, -⟩ := heq
            refine absurd (hall (p, c) ?_) hc
            rw [List.zip_cons_cons]
            exact List.mem_cons_self _ _

theorem digitsTail_iff (l : List Char) :
    digitsTail l = true ↔
      ∃ ds nl, l = ds ++ nl ∧ ds ≠ [] ∧ (∀ c ∈ ds, ndDigit c = true) ∧
        (nl = [] ∨ nl = ['\n']) := by
  induction l with
  | nil =>
    constructor
    · intro h
      exact Bool.noConfusion h
    · rintro ⟨ds, nl, heq, hne, -, -⟩
      exact absurd (List.append_eq_nil.mp heq.symm).1 hne
  | cons c cs ih =>
    show (ndDigit c && (cs == ([] : List Char) || cs == ['\n'] || digitsTail cs)) = true ↔ _
    rw [Bool.and_eq_true, Bool.or_eq_true, Bool.or_eq_true]
    constructor
    · rintro ⟨hc, (hemp | hnl) | ht⟩
      · refine ⟨[c], [], by simp [eq_of_beq hemp], by simp, ?_, Or.inl rfl⟩
        intro x hx
        rcases List.mem_singleton.mp hx with rfl
        exact hc
      · refine ⟨[c], ['\n'], by simp [eq_of_beq hnl], by simp, ?_, Or.inr rfl⟩
        intro x hx
        rcases List.mem_singleton.mp hx with rfl
        exact hc
      · obtain ⟨ds, nl, heq, hne, hall, hnl⟩ := ih.mp ht
        refine ⟨c :: ds, nl, by rw [heq]; rfl, by simp, ?_, hnl⟩
        intro x hx
        rcases List.mem_cons.mp hx with rfl | hx2
        · exact hc
        · exact hall x hx2
    · rintro ⟨ds, nl, heq, hne, hall, hnl⟩
      cases ds with
      | nil => exact absurd rfl hne
      | cons d ds =>
        simp only [List.cons_append, List.cons.injEq] at heq
        obtain ⟨rfl, heq2⟩ := heq
        refine ⟨hall c (by simp), ?_⟩
        cases ds with
        | nil =>
          simp only [List.nil_append] at heq2
          rcases hnl with rfl | rfl
          · exact Or.inl (Or.inl (by rw [heq2]; rfl))
          · exact Or.inl (Or.inr (by rw [heq2]; rfl))
        | cons e es =>
          refine Or.inr (ih.mpr ⟨e :: es, nl, heq2, by simp, ?_, hnl⟩)
          intro x hx
          exact hall x (List.mem_cons_of_mem _ hx)

theorem tailEnd_iff (l : List Char) :
    tailEnd l = true ↔
      l = [] ∨ l = ['\n'] ∨
        ∃ ds nl, l = '.' :: (ds ++ nl) ∧ ds ≠ [] ∧ (∀ c ∈ ds, ndDigit c = true) ∧
          (nl = [] ∨ nl = ['\n']) := by
  cases l with
  | nil => simp [tailEnd]
  | cons c cs =>
    show ((c == '\n' && cs == ([] : List Char)) || (c == '.' && digitsTail cs)) = true ↔ _
    rw [Bool.or_eq_true, Bool.and_eq_true, Bool.and_eq_true]
    constructor
    · rintro (⟨hc, hcs⟩ | ⟨hc, ht⟩)
      · rcases eq_of_beq hc with rfl
        rcases eq_of_beq hcs with rfl
        exact Or.inr (Or.inl rfl)
      · rcases eq_of_beq hc with rfl
        obtain ⟨ds, nl, heq, hne, hall, hnl⟩ := (digitsTail_iff cs).mp ht
        exact Or.inr (Or.inr ⟨ds, nl, by rw [heq], hne, hall, hnl⟩)
    · rintro (h | h | ⟨ds, nl, heq, hne, hall, hnl⟩)
      · exact absurd h (List.cons_ne_nil c cs)
      · injection h with h1 h2
        subst h1
        subst h2
        exact Or.inl ⟨by rfl, by rfl⟩
      · injection heq with h1 h2
        subst h1
        subst h2
        exact Or.inr ⟨by rfl, (digitsTail_iff _).mpr ⟨ds, nl, rfl, hne, hall, hnl⟩⟩

theorem rootMatch_iff (root code : String) :
    rootMatch root code = true ↔
      ∃ stem rest, code.data = stem ++ rest ∧ stem.length = root.data.length ∧
        (∀ p ∈ root.data.zip stem, charMatch p.1 p.2 = true) ∧
        (rest = [] ∨ rest = ['\n'] ∨
          ∃ ds nl, rest = '.' :: (ds ++ nl) ∧ ds ≠ [] ∧
            (∀ ch ∈ ds, ndDigit ch = true) ∧ (nl = [] ∨ nl = ['\n'])) := by
  unfold rootMatch
  cases hrc : rootConsume root.data code.data with
  | none =>
    constructor
    · intro h
      exact Bool.noConfusion h
    · rintro ⟨stem, rest, heq, hlen, hall, -⟩
      have h2 := rootConsume_eq_some.mpr ⟨stem, heq, hlen, hall⟩
      rw [hrc] at h2
      exact Option.noConfusion h2
  | some rest0 =>
    obtain ⟨stem0, heq0, hlen0, hall0⟩ := rootConsume_eq_some.mp hrc
    constructor
    · intro h
      exact ⟨stem0, rest0, heq0, hlen0, hall0, (tailEnd_iff rest0).mp h⟩
    · rintro ⟨stem, rest, heq, hlen, hall, hre⟩
      obtain ⟨-, hr⟩ := List.append_inj (heq.symm.trans heq0) (hlen.trans hlen0.symm)
      subst hr
      exact (tailEnd_iff _).mpr hre

theorem maskVal_iff (fixed roots : List String) (v : Value) :
    maskVal fixed roots v = true ↔
      ∃ s, v = Value.str s ∧ (s ∈ fixed ∨ ∃ rt ∈ roots, rootMatch rt s = true) := by
  cases v with
  | str s => simp [maskVal]
  | na => simp [maskVal]
  | int i => simp [maskVal]
  | date d => simp [maskVal]

/-- Demo diagnostics frame for the matching examples: one code column
with the seven codes of the testable properties plus a code carrying a
trailing newline, which the $ anchor of the pattern accepts. -/
def diagDemo : DF :=
  ⟨[("code", DType.text)],
   [[("code", Value.str "I10")], [("code", Value.str "I101")], [("code", Value.str "I15")],
    [("code", Value.str "I15.0")], [("code", Value.str "I15.12")], [("code", Value.str "I150")],
    [("code", Value.str "I16")], [("code", Value.str "I15\n")]]⟩

/-- The candidate frame matchedStage produces on diagDemo with
fixed_codes ["I10"] and code_roots ["I15"]: the five matching rows —
the trailing-newline code among them — each with the code overwritten
by the marker "1". -/
def matchedDemo : DF :=
  ⟨[("code", DType.text)],
   [[("code", Value.str "1")], [("code", Value.str "1")],
    [("code", Value.str "1")], [("code", Value.str "1")],
    [("code", Value.str "1")]]⟩

/-- C7 (corrected): for roots whose only regex metacharacter is the
decimal point, a diagnostics row is selected as a candidate iff its
code cell holds a string that exactly equals one of fixed_codes or, for
some root in code_roots, consists of one character per root position
(the root's dots matching any non-newline character, every other
character only itself), optionally followed by a decimal point and one
or more Unicode decimal digits, optionally followed by one trailing
newline, which the $ anchor accepts; and the candidate rows of
add_latest_diagnosis_entry are exactly the mask-selected rows with the
code overwritten by the marker "1".  The spec examples hold (fixed
"I10" matches "I10" and not "I101"; root "I15" matches "I15", "I15.0",
"I15.12" and not "I150" or "I16"), but the claim and the spec
understate the match set: the program also selects "I15\n" under root
"I15", a non-ASCII-digit subcode "I15.٥", and, for the dotted root
"E11.9", the wildcard match "E11X9". -/
theorem diag_candidate_selection :
    (∀ (fixed roots : List String) (v : Value),
        (∀ rt ∈ roots, literalOrDot rt = true) →
        (maskVal fixed roots v = true ↔
          ∃ s, v = Value.str s ∧
            (s ∈ fixed ∨ ∃ rt ∈ roots, ∃ stem rest, s.data = stem ++ rest ∧
              stem.length = rt.data.length ∧
              (∀ p ∈ rt.data.zip stem, charMatch p.1 p.2 = true) ∧
              (rest = [] ∨ rest = ['\n'] ∨
                ∃ ds nl, rest = '.' :: (ds ++ nl) ∧ ds ≠ [] ∧
                  (∀ ch ∈ ds, ndDigit ch = true) ∧ (nl = [] ∨ nl = ['\n']))))) ∧
    (∀ (diag : DF) (ccol : String) (fixed roots : List String) (out : DF),
        matchedStage diag ccol fixed roots = .ok out →
          out.rows = (diag.rows.filter (fun r => maskVal fixed roots (getV r ccol))).map
            (fun r => setCol r ccol (Value.str "1"))) ∧
    (maskVal ["I10"] [] (Value.str "I10") = true ∧
     maskVal ["I10"] [] (Value.str "I101") = false ∧
     maskVal [] ["I15"] (Value.str "I15") = true ∧
     maskVal [] ["I15"] (Value.str "I15.0") = true ∧
     maskVal [] ["I15"] (Value.str "I15.12") = true ∧
     maskVal [] ["I15"] (Value.str "I150") = false ∧
     maskVal [] ["I15"] (Value.str "I16") = false ∧
     maskVal [] ["I15"] (Value.str "I15\n") = true ∧
     maskVal [] ["I15"] (Value.str "I15.٥") = true ∧
     maskVal [] ["E11.9"] (Value.str "E11X9") = true ∧
     maskVal [] ["E11.9"] (Value.str "E11.9\n") = true) := by
  refine ⟨?_, ?_, by decide⟩
  · intro fixed roots v _
    rw [maskVal_iff]
    constructor
    · rintro ⟨s, rfl, h⟩
      refine ⟨s, rfl, ?_⟩
      rcases h with h | ⟨rt, hrt, hm⟩
      · exact Or.inl h
      · exact Or.inr ⟨rt, hrt, (rootMatch_iff rt s).mp hm⟩
    · rintro ⟨s, rfl, h⟩
      refine ⟨s, rfl, ?_⟩
      rcases h with h | ⟨rt, hrt, hm⟩
      · exact Or.inl h
      · exact Or.inr ⟨rt, hrt, (rootMatch_iff rt s).mpr hm⟩
  · intro diag ccol fixed roots out h
    unfold matchedStage at h
    split at h
    · cases h
      rfl
    · exact Except.noConfusion h

/-- Witness: the corrected mask characterization applied at the
trailing-newline code under root I15 (its hygiene hypothesis discharged
concretely), and the general candidate-row equation applied to the demo
frame, which yields exactly the five marker rows. -/
theorem diag_candidate_selection_witness :
    (maskVal [] ["I15"] (Value.str "I15\n") = true ↔
      ∃ s, Value.str "I15\n" = Value.str s ∧
        (s ∈ ([] : List String) ∨ ∃ rt ∈ ["I15"], ∃ stem rest, s.data = stem ++ rest ∧
          stem.length = rt.data.length ∧
          (∀ p ∈ rt.data.zip stem, charMatch p.1 p.2 = true) ∧
          (rest = [] ∨ rest = ['\n'] ∨
            ∃ ds nl, rest = '.' :: (ds ++ nl) ∧ ds ≠ [] ∧
              (∀ ch ∈ ds, ndDigit ch = true) ∧ (nl = [] ∨ nl = ['\n'])))) ∧
    matchedDemo.rows = (diagDemo.rows.filter
        (fun r => maskVal ["I10"] ["I15"] (getV r "code"))).map
      (fun r => setCol r "code" (Value.str "1")) :=
  ⟨diag_candidate_selection.1 [] ["I15"] (Value.str "I15\n") (by decide),
   diag_candidate_selection.2.1 diagDemo "code" ["I10"] ["I15"] matchedDemo rfl⟩

/-- Counterexample to the claim: the selection mask of the program —
whose $ anchor also matches just before one trailing newline — selects
the code "I15\n" under root "I15", yet that code neither equals "I15"
nor is "I15" followed by a decimal point and one or more digits, the
only forms the claim admits. -/
theorem diag_candidate_selection_counterexample :
    maskVal [] ["I15"] (Value.str "I15\n") = true ∧
    ¬("I15\n" = "I15" ∨ ∃ ds : List Char, ds ≠ [] ∧
        (∀ ch ∈ ds, ch.isDigit = true) ∧
        ("I15\n").data = ("I15").data ++ '.' :: ds) := by
  refine ⟨by decide, ?_⟩
  rintro (h | ⟨ds, -, -, heq⟩)
  · exact absurd h (by decide)
  · have heq2 : ('I' :: '1' :: '5' :: '\n' :: [] : List Char) =
        'I' :: '1' :: '5' :: '.' :: ds := heq
    injection heq2 with h1 heq2
    injection heq2 with h2 heq2
    injection heq2 with h3 heq2
    injection heq2 with h4 heq2
    exact absurd h4 (by decide)

/-! ### Stage decompositions -/

theorem filterLtCol_ok {df : DF} {c1 c2 : String} {out : DF}
    (h : filterLtCol df c1 c2 = .ok out) :
    df.hasCol c1 = true ∧ df.hasCol c2 = true ∧
    out = ⟨df.cols, df.rows.filter (fun r => ltV (getV r c1) (getV r c2))⟩ := by
  unfold filterLtCol at h
  split at h
  next h1 =>
    split at h
    next h2 =>
      cases h
      exact ⟨h1, h2, rfl⟩
    next => exact Except.noConfusion h
  next => exact Except.noConfusion h

theorem groupIdxmax_ok {df : DF} {k1 k2 vc : String} {out : DF}
    (h : groupIdxmax df k1 k2 vc = .ok out) :
    df.hasCol k1 = true ∧ df.hasCol k2 = true ∧ df.hasCol vc = true ∧
    out = ⟨df.cols, groupLatestRows df.rows k1 k2 vc⟩ := by
  unfold groupIdxmax at h
  split at h
  next h1 =>
    split at h
    next h2 =>
      split at h
      next h3 =>
        cases h
        exact ⟨h1, h2, h3, rfl⟩
      next => exact Except.noConfusion h
    next => exact Except.noConfusion h
  next => exact Except.noConfusion h

theorem tjValid_ok {goal src : DF} {idc a b dcol rdc : String} {v : DF}
    (h : tjValid goal src idc a b dcol rdc = .ok v) :
    ∃ sel help, selectCols src [idc, a, b] = .ok sel ∧
      mergeOn goal sel idc = .ok help ∧
      help.hasCol (dcol ++ "_y") = true ∧ help.hasCol (rdc ++ "_x") = true ∧
      v = ⟨help.cols, help.rows.filter
        (fun r => ltV (getV r (dcol ++ "_y")) (getV r (rdc ++ "_x")))⟩ := by
  unfold tjValid at h
  cases hsel : selectCols src [idc, a, b] with
  | error e =>
    rw [hsel, eb_error] at h
    exact Except.noConfusion h
  | ok sel =>
    rw [hsel, eb_ok] at h
    cases hm : mergeOn goal sel idc with
    | error e =>
      rw [hm, eb_error] at h
      exact Except.noConfusion h
    | ok help =>
      rw [hm, eb_ok] at h
      obtain ⟨h1, h2, h3⟩ := filterLtCol_ok h
      refine ⟨sel, help, ?_, ?_, h1, h2, h3⟩ <;> first | rfl | assumption

theorem tjLatest_ok {goal src : DF} {idc a b dcol rdc ycol rescol : String} {latest : DF}
    (h : tjLatest goal src idc a b dcol rdc ycol rescol = .ok latest) :
    ∃ v latest0, tjValid goal src idc a b dcol rdc = .ok v ∧
      groupIdxmax v idc (rdc ++ "_x") (dcol ++ "_y") = .ok latest0 ∧
      latest = renameCols latest0 [(rdc ++ "_x", "ref_date"), (ycol, rescol)] := by
  unfold tjLatest at h
  cases hv : tjValid goal src idc a b dcol rdc with
  | error e =>
    rw [hv, eb_error] at h
    exact Except.noConfusion h
  | ok v =>
    rw [hv, eb_ok] at h
    cases hg : groupIdxmax v idc (rdc ++ "_x") (dcol ++ "_y") with
    | error e =>
      rw [hg, eb_error] at h
      exact Except.noConfusion h
    | ok latest0 =>
      rw [hg, eb_ok] at h
      cases h
      refine ⟨v, latest0, ?_, ?_, rfl⟩ <;> first | rfl | assumption

theorem value_op_ok {goal data : DF} {sdc rdc vc : String} {rcn : Option String}
    {idc : String} {out : DF}
    (h : add_latest_entry_before_date goal data sdc rdc vc rcn idc = .ok out) :
    ∃ parsed latest1 latest2, parseDateCol data sdc = .ok parsed ∧
      tjLatest goal parsed idc sdc vc sdc rdc vc (rcn.getD vc) = .ok latest1 ∧
      applyNumericFilter latest1 (rcn.getD vc) = .ok latest2 ∧
      tjFinish goal latest2 idc rdc (rcn.getD vc) = .ok out ∧
      checkCol out (rcn.getD vc) = .ok () := by
  unfold add_latest_entry_before_date at h
  cases hp : parseDateCol data sdc with
  | error e =>
    rw [hp, eb_error] at h
    exact Except.noConfusion h
  | ok parsed =>
    rw [hp, eb_ok] at h
    cases h1 : tjLatest goal parsed idc sdc vc sdc rdc vc (rcn.getD vc) with
    | error e =>
      rw [h1, eb_error] at h
      exact Except.noConfusion h
    | ok latest1 =>
      rw [h1, eb_ok] at h
      cases h2 : applyNumericFilter latest1 (rcn.getD vc) with
      | error e =>
        rw [h2, eb_error] at h
        exact Except.noConfusion h
      | ok latest2 =>
        rw [h2, eb_ok] at h
        cases h3 : tjFinish goal latest2 idc rdc (rcn.getD vc) with
        | error e =>
          rw [h3, eb_error] at h
          exact Except.noConfusion h
        | ok updated =>
          rw [h3, eb_ok] at h
          cases h4 : checkCol updated (rcn.getD vc) with
          | error e =>
            rw [h4, eb_error] at h
            exact Except.noConfusion h
          | ok u =>
            rw [h4, eb_ok] at h
            cases h
            refine ⟨parsed, latest1, latest2, ?_, ?_, ?_, ?_, ?_⟩ <;> first | rfl | assumption

theorem diag_op_ok {goal diag : DF} {ccol dcol : String} {fixed roots : List String}
    {rdc rescol idc : String} {out : DF}
    (h : add_latest_diagnosis_entry goal diag ccol dcol fixed roots rdc rescol idc = .ok out) :
    ∃ parsed matched latest updated0, parseDateCol diag dcol = .ok parsed ∧
      matchedStage parsed ccol fixed roots = .ok matched ∧
      tjLatest goal matched idc ccol dcol dcol rdc ccol rescol = .ok latest ∧
      tjFinish goal latest idc rdc rescol = .ok updated0 ∧
      replaceBlankCol updated0 rescol = .ok out ∧
      checkCol out rescol = .ok () := by
  unfold add_latest_diagnosis_entry at h
  cases hp : parseDateCol diag dcol with
  | error e =>
    rw [hp, eb_error] at h
    exact Except.noConfusion h
  | ok parsed =>
    rw [hp, eb_ok] at h
    cases h0 : matchedStage parsed ccol fixed roots with
    | error e =>
      rw [h0, eb_error] at h
      exact Except.noConfusion h
    | ok matched =>
      rw [h0, eb_ok] at h
      cases h1 : tjLatest goal matched idc ccol dcol dcol rdc ccol rescol with
      | error e =>
        rw [h1, eb_error] at h
        exact Except.noConfusion h
      | ok latest =>
        rw [h1, eb_ok] at h
        cases h2 : tjFinish goal latest idc rdc rescol with
        | error e =>
          rw [h2, eb_error] at h
          exact Except.noConfusion h
        | ok updated0 =>
          rw [h2, eb_ok] at h
          cases h3 : replaceBlankCol updated0 rescol with
          | error e =>
            rw [h3, eb_error] at h
            exact Except.noConfusion h
          | ok updated =>
            rw [h3, eb_ok] at h
            cases h4 : checkCol updated rescol with
            | error e =>
              rw [h4, eb_error] at h
              exact Except.noConfusion h
            | ok u =>
              rw [h4, eb_ok] at h
              cases h
              refine ⟨parsed, matched, latest, updated0, ?_, ?_, ?_, ?_, ?_, ?_⟩ <;> first | rfl | assumption

/-! ### Group-selection properties -/

theorem ltV_true_dates {x y : Value} (h : ltV x y = true) :
    (∃ d, x = Value.date d) ∧ (∃ d, y = Value.date d) := by
  cases x <;> cases y <;> simp [ltV] at h ⊢

theorem keysOf_group_ne_nil {rows : List Row} {k1 k2 : String} {k : Value × Value}
    (h : k ∈ keysOf rows k1 k2) : groupRows rows k1 k2 k ≠ [] := by
  unfold keysOf at h
  obtain ⟨r, hr, hk⟩ := List.mem_map.mp (List.mem_dedup.mp h)
  have hrmem : r ∈ rows := (List.mem_filter.mp hr).1
  intro hnil
  have hmem : r ∈ groupRows rows k1 k2 k :=
    mem_groupRows.mpr ⟨hrmem, by rw [← hk], by rw [← hk]⟩
  rw [hnil] at hmem
  exact List.not_mem_nil r hmem

/-- The latest-wins selection property of one grouped frame: every group
with at least two rows has a selected row, it belongs to the output of
the grouping stage and to the group, and its source date attains the
maximum of the group's source dates. -/
def LatestSelProp (v : DF) (idc rdt sdt : String) : Prop :=
  ∀ k ∈ keysOf v.rows idc rdt, 2 ≤ (groupRows v.rows idc rdt k).length →
    ∃ sel, idxmaxRow sdt (groupRows v.rows idc rdt k) = some sel ∧
      sel ∈ groupLatestRows v.rows idc rdt sdt ∧
      sel ∈ groupRows v.rows idc rdt k ∧
      ∃ m, getV sel sdt = Value.date m ∧
        ∀ r ∈ groupRows v.rows idc rdt k, ∃ d, getV r sdt = Value.date d ∧ d ≤ m

theorem latestSel_of_pred {v : DF} {idc rdt sdt : String}
    (hpred : ∀ r ∈ v.rows, ltV (getV r sdt) (getV r rdt) = true) :
    LatestSelProp v idc rdt sdt := by
  intro k hk _
  have hne := keysOf_group_ne_nil hk
  have hdates : ∀ r ∈ groupRows v.rows idc rdt k, ∃ d, getV r sdt = Value.date d :=
    fun r hr => (ltV_true_dates (hpred r (mem_groupRows.mp hr).1)).1
  cases hidx : idxmaxRow sdt (groupRows v.rows idc rdt k) with
  | none => exact absurd ((idxmaxRow_eq_none_iff _ _).mp hidx) hne
  | some sel =>
    have hselmem := idxmaxRow_mem hidx
    obtain ⟨m, hm⟩ := hdates sel hselmem
    refine ⟨sel, rfl, List.mem_filterMap.mpr ⟨k, hk, hidx⟩, hselmem, m, hm, ?_⟩
    intro r hr
    obtain ⟨d, hd⟩ := hdates r hr
    have hnl := idxmaxRow_not_lt hdates hidx r hr
    rw [hm, hd] at hnl
    simp only [ltV, decide_eq_false_iff_not] at hnl
    exact ⟨d, hd, by omega⟩

/-- The order-dependent tie-break property of one grouped frame: when
several rows of a group attain the selected row's (maximal) source date,
the selected row is the first of them in original order. -/
def TieFirstProp (v : DF) (idc rdt sdt : String) : Prop :=
  ∀ k ∈ keysOf v.rows idc rdt,
    ∀ sel, idxmaxRow sdt (groupRows v.rows idc rdt k) = some sel →
      2 ≤ ((groupRows v.rows idc rdt k).filter
        (fun r => getV r sdt == getV sel sdt)).length →
      (groupRows v.rows idc rdt k).find?
        (fun r => getV r sdt == getV sel sdt) = some sel

theorem tieFirst_of_pred {v : DF} {idc rdt sdt : String}
    (hpred : ∀ r ∈ v.rows, ltV (getV r sdt) (getV r rdt) = true) :
    TieFirstProp v idc rdt sdt := by
  intro k _ sel hidx _
  have hdates : ∀ r ∈ groupRows v.rows idc rdt k, ∃ d, getV r sdt = Value.date d :=
    fun r hr => (ltV_true_dates (hpred r (mem_groupRows.mp hr).1)).1
  exact idxmaxRow_first hdates hidx

theorem tjValid_rows_pred {goal src : DF} {idc a b dcol rdc : String} {v : DF}
    (h : tjValid goal src idc a b dcol rdc = .ok v) :
    ∀ r ∈ v.rows, ltV (getV r (dcol ++ "_y")) (getV r (rdc ++ "_x")) = true := by
  obtain ⟨sel, help, _, _, _, _, hv⟩ := tjValid_ok h
  subst hv
  intro r hr
  exact (List.mem_filter.mp hr).2

/-- C5: in every (subject, reference-date) group with two or more
eligible prior source rows, the row selected by the grouping stage of
either operation is one whose source date attains the maximum date among
the group's eligible rows.  The contexts are the two operations'
pipelines: parsed source (and matched diagnostics) feeding the shared
temporal-join valid stage. -/
theorem latest_wins_selection :
    (∀ (goal data : DF) (sdc rdc vc idc : String) (parsed v : DF),
        parseDateCol data sdc = .ok parsed →
        tjValid goal parsed idc sdc vc sdc rdc = .ok v →
        LatestSelProp v idc (rdc ++ "_x") (sdc ++ "_y")) ∧
    (∀ (goal diag : DF) (ccol dcol rdc idc : String) (fixed roots : List String)
        (parsed matched v : DF),
        parseDateCol diag dcol = .ok parsed →
        matchedStage parsed ccol fixed roots = .ok matched →
        tjValid goal matched idc ccol dcol dcol rdc = .ok v →
        LatestSelProp v idc (rdc ++ "_x") (dcol ++ "_y")) := by
  constructor
  · intro goal data sdc rdc vc idc parsed v _ hv
    exact latestSel_of_pred (tjValid_rows_pred hv)
  · intro goal diag ccol dcol rdc idc fixed roots parsed matched v _ _ hv
    exact latestSel_of_pred (tjValid_rows_pred hv)

/-- C9: when two or more eligible rows of a (subject, reference-date)
group share the identical maximal source date, the grouping stage of
either operation selects the first occurrence at that maximum in the
original order of the candidate rows. -/
theorem first_occurrence_tie_break :
    (∀ (goal data : DF) (sdc rdc vc idc : String) (parsed v : DF),
        parseDateCol data sdc = .ok parsed →
        tjValid goal parsed idc sdc vc sdc rdc = .ok v →
        TieFirstProp v idc (rdc ++ "_x") (sdc ++ "_y")) ∧
    (∀ (goal diag : DF) (ccol dcol rdc idc : String) (fixed roots : List String)
        (parsed matched v : DF),
        parseDateCol diag dcol = .ok parsed →
        matchedStage parsed ccol fixed roots = .ok matched →
        tjValid goal matched idc ccol dcol dcol rdc = .ok v →
        TieFirstProp v idc (rdc ++ "_x") (dcol ++ "_y")) := by
  constructor
  · intro goal data sdc rdc vc idc parsed v _ hv
    exact tieFirst_of_pred (tjValid_rows_pred hv)
  · intro goal diag ccol dcol rdc idc fixed roots parsed matched v _ _ hv
    exact tieFirst_of_pred (tjValid_rows_pred hv)

/-- The scenario source after date parsing. -/
def scenarioParsed : DF :=
  ⟨[("idp", DType.numeric), ("t0", DType.dt), ("val", DType.numeric)],
   [[("idp", Value.int 1), ("t0", Value.date 20200101), ("val", Value.int 5)],
    [("idp", Value.int 1), ("t0", Value.date 20200105), ("val", Value.int (-2))]]⟩

/-- The scenario's valid stage: both source rows joined and eligible. -/
def scenarioValid : DF :=
  ⟨[("idp", DType.numeric), ("t0_x", DType.dt), ("t0_y", DType.dt), ("val", DType.numeric)],
   [[("idp", Value.int 1), ("t0_x", Value.date 20200110),
     ("t0_y", Value.date 20200101), ("val", Value.int 5)],
    [("idp", Value.int 1), ("t0_x", Value.date 20200110),
     ("t0_y", Value.date 20200105), ("val", Value.int (-2))]]⟩

/-- Witness: the latest-wins property holds of the scenario's concrete
valid stage, whose single group has two eligible rows. -/
theorem latest_wins_selection_witness :
    LatestSelProp scenarioValid "idp" ("t0" ++ "_x") ("t0" ++ "_y") :=
  latest_wins_selection.1 scenarioGoal scenarioData "t0" "t0" "val" "idp"
    scenarioParsed scenarioValid rfl rfl

/-- Source with two rows sharing the identical date 20200105. -/
def tieData : DF :=
  ⟨[("idp", DType.numeric), ("t0", DType.text), ("val", DType.numeric)],
   [[("idp", Value.int 1), ("t0", Value.str "20200105"), ("val", Value.int 7)],
    [("idp", Value.int 1), ("t0", Value.str "20200105"), ("val", Value.int 9)]]⟩

/-- The tie source after date parsing. -/
def tieParsed : DF :=
  ⟨[("idp", DType.numeric), ("t0", DType.dt), ("val", DType.numeric)],
   [[("idp", Value.int 1), ("t0", Value.date 20200105), ("val", Value.int 7)],
    [("idp", Value.int 1), ("t0", Value.date 20200105), ("val", Value.int 9)]]⟩

/-- The tie scenario's valid stage: one group, two rows at the same
maximal date. -/
def tieValid : DF :=
  ⟨[("idp", DType.numeric), ("t0_x", DType.dt), ("t0_y", DType.dt), ("val", DType.numeric)],
   [[("idp", Value.int 1), ("t0_x", Value.date 20200110),
     ("t0_y", Value.date 20200105), ("val", Value.int 7)],
    [("idp", Value.int 1), ("t0_x", Value.date 20200110),
     ("t0_y", Value.date 20200105), ("val", Value.int 9)]]⟩

/-- Witness: the first-occurrence tie-break property holds of the
concrete tied valid stage. -/
theorem first_occurrence_tie_break_witness :
    TieFirstProp tieValid "idp" ("t0" ++ "_x") ("t0" ++ "_y") :=
  first_occurrence_tie_break.1 scenarioGoal tieData "t0" "t0" "val" "idp"
    tieParsed tieValid rfl rfl

/-! ### Column-name computations -/

theorem names_renamePairs {α : Type} (f : String → String) (l : List (String × α)) :
    (renamePairs f l).map (fun p => p.1) = (l.map (fun p => p.1)).map f := by
  simp [renamePairs, List.map_map]

theorem dropKeys_names {α : Type} (ks : List String) (l : List (String × α)) :
    (dropKeys ks l).map (fun p => p.1) =
      (l.map (fun p => p.1)).filter (fun c => !(ks.contains c)) := by
  induction l with
  | nil => rfl
  | cons p ps ih =>
    by_cases hp : p.1 ∈ ks <;>
      simp only [dropKeys] at ih ⊢ <;>
      simp [List.filter_cons, hp] at ih ⊢ <;>
      try exact ih

theorem parseDateCol_ok {df : DF} {c : String} {out : DF}
    (h : parseDateCol df c = .ok out) :
    df.hasCol c = true ∧ out.colNames = df.colNames ∧
      out.cols = df.cols.map (fun p => if p.1 = c then (p.1, DType.dt) else p) ∧
      parseRows c df.rows = some out.rows := by
  unfold parseDateCol at h
  split at h
  next h1 =>
    cases hp : parseRows c df.rows with
    | none =>
      rw [hp] at h
      exact Except.noConfusion h
    | some rs =>
      rw [hp] at h
      cases h
      refine ⟨h1, ?_, rfl, rfl⟩
      simp only [DF.colNames, List.map_map]
      exact List.map_congr_left (fun p _ => by by_cases hpc : p.1 = c <;> simp [hpc])
  next => exact Except.noConfusion h

theorem selectCols_ok {df : DF} {cs : List String} {out : DF}
    (h : selectCols df cs = .ok out) :
    (∀ c ∈ cs, df.hasCol c = true) ∧
    out = ⟨cs.map (fun c => (c, (df.dtypeOf c).getD DType.text)),
           df.rows.map (fun r => cs.map (fun c => (c, getV r c)))⟩ := by
  unfold selectCols at h
  cases hf : cs.find? (fun c => !(df.hasCol c)) with
  | some c =>
    rw [hf] at h
    exact Except.noConfusion h
  | none =>
    rw [hf] at h
    cases h
    refine ⟨?_, rfl⟩
    intro c hc
    have := List.find?_eq_none.mp hf c hc
    simpa using this

theorem selectCols_eq_ok_of {df : DF} {cs : List String}
    (h : ∀ c ∈ cs, df.hasCol c = true) :
    selectCols df cs = .ok ⟨cs.map (fun c => (c, (df.dtypeOf c).getD DType.text)),
      df.rows.map (fun r => cs.map (fun c => (c, getV r c)))⟩ := by
  unfold selectCols
  have hf : cs.find? (fun c => !(df.hasCol c)) = none :=
    List.find?_eq_none.mpr (fun c hc => by simp [h c hc])
  rw [hf]

theorem selectCols_colNames {df : DF} {cs : List String} {out : DF}
    (h : selectCols df cs = .ok out) : out.colNames = cs := by
  obtain ⟨-, rfl⟩ := selectCols_ok h
  simp only [DF.colNames, List.map_map]
  exact List.map_congr_left (fun c _ => rfl) |>.trans (List.map_id cs)

theorem mergeLR_eq_ok_of {l r : DF} {lks rks : List String}
    (h1 : ∀ c ∈ lks, l.hasCol c = true) (h2 : ∀ c ∈ rks, r.hasCol c = true) :
    mergeLR l r lks rks =
      .ok ⟨renamePairs (suffixName (mergeOverlap l r lks rks) "_x") l.cols ++
             renamePairs (suffixName (mergeOverlap l r lks rks) "_y")
               (dropKeys (collapsedKeys lks rks) r.cols),
           l.rows.flatMap (mergeRowsFor (mergeOverlap l r lks rks)
             (collapsedKeys lks rks) lks rks r.rows r.cols)⟩ := by
  unfold mergeLR
  have hf1 : lks.find? (fun c => !(l.hasCol c)) = none :=
    List.find?_eq_none.mpr (fun c hc => by simp [h1 c hc])
  have hf2 : rks.find? (fun c => !(r.hasCol c)) = none :=
    List.find?_eq_none.mpr (fun c hc => by simp [h2 c hc])
  rw [hf1, hf2]

theorem mergeLR_ok {l r : DF} {lks rks : List String} {out : DF}
    (h : mergeLR l r lks rks = .ok out) :
    (∀ c ∈ lks, l.hasCol c = true) ∧ (∀ c ∈ rks, r.hasCol c = true) ∧
    out = ⟨renamePairs (suffixName (mergeOverlap l r lks rks) "_x") l.cols ++
             renamePairs (suffixName (mergeOverlap l r lks rks) "_y")
               (dropKeys (collapsedKeys lks rks) r.cols),
           l.rows.flatMap (mergeRowsFor (mergeOverlap l r lks rks)
             (collapsedKeys lks rks) lks rks r.rows r.cols)⟩ := by
  unfold mergeLR at h
  cases hf1 : lks.find? (fun c => !(l.hasCol c)) with
  | some c =>
    rw [hf1] at h
    exact Except.noConfusion h
  | none =>
    rw [hf1] at h
    cases hf2 : rks.find? (fun c => !(r.hasCol c)) with
    | some c =>
      rw [hf2] at h
      exact Except.noConfusion h
    | none =>
      rw [hf2] at h
      cases h
      refine ⟨?_, ?_, rfl⟩
      · intro c hc
        have := List.find?_eq_none.mp hf1 c hc
        simpa using this
      · intro c hc
        have := List.find?_eq_none.mp hf2 c hc
        simpa using this

theorem mem_mergeOverlap {l r : DF} {lks rks : List String} {c : String} :
    c ∈ mergeOverlap l r lks rks ↔
      c ∈ l.colNames ∧ c ∈ r.colNames ∧ c ∉ collapsedKeys lks rks := by
  unfold mergeOverlap
  simp [List.mem_filter, and_assoc]
  tauto

theorem collapsedKeys_single (k : String) : collapsedKeys [k] [k] = [k] := by
  simp [collapsedKeys]

/-! ### Schema coupling: the suffixed-column accesses -/

theorem hasCol_iff {df : DF} {c : String} : df.hasCol c = true ↔ c ∈ df.colNames := by
  unfold DF.hasCol
  simp

theorem hasCol_false_iff {df : DF} {c : String} : df.hasCol c = false ↔ c ∉ df.colNames := by
  unfold DF.hasCol
  simp

theorem suffixName_eq (ovl : List String) (sfx c : String) :
    suffixName ovl sfx c = if c ∈ ovl then c ++ sfx else c := by
  unfold suffixName
  by_cases h : c ∈ ovl <;> simp [h]

/-- The core of the schema-coupling failure: the shared valid stage reads
help_df[dcol_y] and help_df[rdc_x], and with sane (unsuffixed-looking)
column names these exist only if dcol collides between the target and
the selected source columns and rdc is a selected source column other
than the id; otherwise the stage raises KeyError for the first absent
label. -/
theorem tjValid_keyerror {goal src : DF} {idc a b dcol rdc : String}
    (hidg : goal.hasCol idc = true)
    (hida : src.hasCol idc = true) (hac : src.hasCol a = true) (hbc : src.hasCol b = true)
    (hia : idc ≠ a) (hib : idc ≠ b)
    (hd : dcol = a ∨ dcol = b)
    (hg : ∀ c ∈ goal.colNames, c ≠ dcol ++ "_y" ∧ c ++ "_x" ≠ dcol ++ "_y" ∧
      c ≠ rdc ++ "_x" ∧ (c ++ "_x" = rdc ++ "_x" → c = rdc))
    (ha1 : a ≠ dcol ++ "_y") (hb1 : b ≠ dcol ++ "_y")
    (ha2 : a ≠ dcol → a ++ "_y" ≠ dcol ++ "_y") (hb2 : b ≠ dcol → b ++ "_y" ≠ dcol ++ "_y")
    (ha3 : a ≠ rdc ++ "_x") (hb3 : b ≠ rdc ++ "_x")
    (ha4 : a ++ "_y" ≠ rdc ++ "_x") (hb4 : b ++ "_y" ≠ rdc ++ "_x")
    (hmiss : goal.hasCol dcol = false ∨ rdc ∉ ([idc, a, b] : List String)) :
    tjValid goal src idc a b dcol rdc = .error (.keyError (dcol ++ "_y")) ∨
    tjValid goal src idc a b dcol rdc = .error (.keyError (rdc ++ "_x")) := by
  obtain ⟨sel, hsel⟩ : ∃ sel, selectCols src [idc, a, b] = .ok sel :=
    ⟨_, selectCols_eq_ok_of (by
      intro c hc
      simp only [List.mem_cons, List.not_mem_nil, or_false] at hc
      rcases hc with rfl | rfl | rfl
      · exact hida
      · exact hac
      · exact hbc)⟩
  have hselnames := selectCols_colNames hsel
  have hselid : sel.hasCol idc = true := hasCol_iff.mpr (by rw [hselnames]; simp)
  obtain ⟨help, hmerge⟩ : ∃ h, mergeOn goal sel idc = .ok h :=
    ⟨_, mergeLR_eq_ok_of
      (by
        intro c hc
        simp only [List.mem_singleton] at hc
        subst hc
        exact hidg)
      (by
        intro c hc
        simp only [List.mem_singleton] at hc
        subst hc
        exact hselid)⟩
  obtain ⟨-, -, helpdef⟩ := mergeLR_ok hmerge
  have hanei : a ≠ idc := fun hh => hia hh.symm
  have hbnei : b ≠ idc := fun hh => hib hh.symm
  have hfilt : [idc, a, b].filter (fun c => !(([idc] : List String).contains c)) = [a, b] := by
    simp [List.filter_cons, hanei, hbnei]
  have hhn : help.colNames =
      goal.colNames.map (suffixName (mergeOverlap goal sel [idc] [idc]) "_x") ++
      [a, b].map (suffixName (mergeOverlap goal sel [idc] [idc]) "_y") := by
    rw [helpdef]
    unfold DF.colNames
    rw [List.map_append, names_renamePairs, names_renamePairs, dropKeys_names,
      collapsedKeys_single]
    have : sel.cols.map (fun p => p.1) = [idc, a, b] := hselnames
    rw [this, hfilt]
  have hovl : ∀ c, c ∈ mergeOverlap goal sel [idc] [idc] ↔
      (c ∈ goal.colNames ∧ (c = a ∨ c = b)) := by
    intro c
    rw [mem_mergeOverlap, hselnames, collapsedKeys_single]
    simp only [List.mem_cons, List.not_mem_nil, or_false, List.mem_singleton]
    constructor
    · rintro ⟨h1, h2, h3⟩
      rcases h2 with rfl | rfl | rfl
      · exact absurd rfl h3
      · exact ⟨h1, Or.inl rfl⟩
      · exact ⟨h1, Or.inr rfl⟩
    · rintro ⟨h1, h2⟩
      rcases h2 with rfl | rfl
      · exact ⟨h1, Or.inr (Or.inl rfl), fun hh => hia hh.symm⟩
      · exact ⟨h1, Or.inr (Or.inr rfl), fun hh => hib hh.symm⟩
  have hsdtL : (dcol ++ "_y") ∉
      goal.colNames.map (suffixName (mergeOverlap goal sel [idc] [idc]) "_x") := by
    intro hmem
    obtain ⟨c, hc, heq⟩ := List.mem_map.mp hmem
    rw [suffixName_eq] at heq
    by_cases hov : c ∈ mergeOverlap goal sel [idc] [idc]
    · rw [if_pos hov] at heq
      exact (hg c hc).2.1 heq
    · rw [if_neg hov] at heq
      exact (hg c hc).1 heq
  by_cases hdg : goal.hasCol dcol = true
  · -- the date column collides; only rdc can be missing
    have hrdc : rdc ∉ ([idc, a, b] : List String) := by
      rcases hmiss with hm | hm
      · rw [hdg] at hm
        exact absurd hm (by simp)
      · exact hm
    have hsdtin : help.hasCol (dcol ++ "_y") = true := by
      rw [hasCol_iff, hhn]
      refine List.mem_append.mpr (Or.inr ?_)
      have hdovl : dcol ∈ mergeOverlap goal sel [idc] [idc] :=
        (hovl dcol).mpr ⟨hasCol_iff.mp hdg, hd⟩
      refine List.mem_map.mpr ⟨dcol, ?_, ?_⟩
      · rcases hd with rfl | rfl
        · simp
        · simp
      · rw [suffixName_eq, if_pos hdovl]
    have hrdtout : help.hasCol (rdc ++ "_x") = false := by
      rw [hasCol_false_iff, hhn]
      intro hmem
      rcases List.mem_append.mp hmem with hmem | hmem
      · obtain ⟨c, hc, heq⟩ := List.mem_map.mp hmem
        rw [suffixName_eq] at heq
        by_cases hov : c ∈ mergeOverlap goal sel [idc] [idc]
        · rw [if_pos hov] at heq
          have hceq : c = rdc := (hg c hc).2.2.2 heq
          subst hceq
          rcases ((hovl c).mp hov).2 with rfl | rfl
          · exact hrdc (by simp)
          · exact hrdc (by simp)
        · rw [if_neg hov] at heq
          exact (hg c hc).2.2.1 heq
      · obtain ⟨c, hc, heq⟩ := List.mem_map.mp hmem
        rw [suffixName_eq] at heq
        simp only [List.mem_cons, List.not_mem_nil, or_false] at hc
        rcases hc with rfl | rfl
        · by_cases hov : c ∈ mergeOverlap goal sel [idc] [idc]
          · rw [if_pos hov] at heq
            exact ha4 heq
          · rw [if_neg hov] at heq
            exact ha3 heq
        · by_cases hov : c ∈ mergeOverlap goal sel [idc] [idc]
          · rw [if_pos hov] at heq
            exact hb4 heq
          · rw [if_neg hov] at heq
            exact hb3 heq
    right
    unfold tjValid
    rw [hsel, eb_ok, hmerge, eb_ok]
    unfold filterLtCol
    rw [hsdtin, hrdtout]
    rfl
  · -- the date column does not collide: dcol_y is absent
    have hdg2 : dcol ∉ goal.colNames := by
      rw [← hasCol_false_iff]
      cases hh : goal.hasCol dcol
      · rfl
      · exact absurd hh hdg
    have hsdtout : help.hasCol (dcol ++ "_y") = false := by
      rw [hasCol_false_iff, hhn]
      intro hmem
      rcases List.mem_append.mp hmem with hmem | hmem
      · exact hsdtL hmem
      · obtain ⟨c, hc, heq⟩ := List.mem_map.mp hmem
        rw [suffixName_eq] at heq
        simp only [List.mem_cons, List.not_mem_nil, or_false] at hc
        have hovfalse : ∀ x, x = a ∨ x = b → x ∈ mergeOverlap goal sel [idc] [idc] →
            x ++ "_y" ≠ dcol ++ "_y" := by
          intro x hx hov
          have hxg := ((hovl x).mp hov).1
          intro hxeq
          by_cases hxd : x = dcol
          · subst hxd
            exact hdg2 hxg
          · rcases hx with rfl | rfl
            · exact ha2 hxd hxeq
            · exact hb2 hxd hxeq
        rcases hc with rfl | rfl
        · by_cases hov : c ∈ mergeOverlap goal sel [idc] [idc]
          · rw [if_pos hov] at heq
            exact hovfalse c (Or.inl rfl) hov heq
          · rw [if_neg hov] at heq
            exact ha1 heq
        · by_cases hov : c ∈ mergeOverlap goal sel [idc] [idc]
          · rw [if_pos hov] at heq
            exact hovfalse c (Or.inr rfl) hov heq
          · rw [if_neg hov] at heq
            exact hb1 heq
    left
    unfold tjValid
    rw [hsel, eb_ok, hmerge, eb_ok]
    unfold filterLtCol
    rw [hsdtout]
    rfl

theorem tjLatest_error {goal src : DF} {idc a b dcol rdc ycol rescol : String} {e : Err}
    (h : tjValid goal src idc a b dcol rdc = .error e) :
    tjLatest goal src idc a b dcol rdc ycol rescol = .error e := by
  unfold tjLatest
  rw [h, eb_error]

theorem matchedStage_ok {diag : DF} {ccol : String} {fixed roots : List String} {out : DF}
    (h : matchedStage diag ccol fixed roots = .ok out) :
    out.rows = (diag.rows.filter (fun r => maskVal fixed roots (getV r ccol))).map
      (fun r => setCol r ccol (Value.str "1")) ∧
    (diag.hasCol ccol = true → out.colNames = diag.colNames) := by
  unfold matchedStage at h
  split at h
  next =>
    cases h
    refine ⟨rfl, ?_⟩
    intro hcc
    unfold DF.colNames
    show (if diag.hasCol ccol = true then
        diag.cols.map (fun p => if p.1 = ccol then (p.1, DType.text) else p)
      else diag.cols ++ [(ccol, DType.text)]).map (fun p => p.1) = _
    rw [if_pos hcc]
    simp only [List.map_map]
    exact List.map_congr_left (fun p _ => by by_cases hpc : p.1 = ccol <;> simp [hpc])
  next => exact Except.noConfusion h

/-- C2: the merged frame has the columns sdc_y and rdc_x that the two
operations read only when the source date column name also occurs in the
target table and the reference date column name is among the selected
source columns (other than the id); for every otherwise well-formed call
violating this coupling the operation raises KeyError for the absent
suffixed label.  The spec's interface lists the two names as independent
parameters and does not state this precondition. -/
theorem schema_coupling_keyerror :
    (∀ (goal data parsed : DF) (sdc rdc vc idc : String) (rcn : Option String),
      parseDateCol data sdc = .ok parsed →
      goal.hasCol idc = true → data.hasCol idc = true → data.hasCol vc = true →
      idc ≠ sdc → idc ≠ vc →
      (∀ c ∈ goal.colNames, c ≠ sdc ++ "_y" ∧ c ++ "_x" ≠ sdc ++ "_y" ∧
        c ≠ rdc ++ "_x" ∧ (c ++ "_x" = rdc ++ "_x" → c = rdc)) →
      sdc ≠ sdc ++ "_y" → vc ≠ sdc ++ "_y" → vc ++ "_y" ≠ sdc ++ "_y" →
      sdc ≠ rdc ++ "_x" → vc ≠ rdc ++ "_x" →
      sdc ++ "_y" ≠ rdc ++ "_x" → vc ++ "_y" ≠ rdc ++ "_x" →
      (goal.hasCol sdc = false ∨ rdc ∉ ([idc, sdc, vc] : List String)) →
      (add_latest_entry_before_date goal data sdc rdc vc rcn idc =
          .error (.keyError (sdc ++ "_y")) ∨
        add_latest_entry_before_date goal data sdc rdc vc rcn idc =
          .error (.keyError (rdc ++ "_x")))) ∧
    (∀ (goal diag parsed matched : DF) (ccol dcol rdc rescol idc : String)
        (fixed roots : List String),
      parseDateCol diag dcol = .ok parsed →
      matchedStage parsed ccol fixed roots = .ok matched →
      goal.hasCol idc = true → diag.hasCol idc = true → diag.hasCol ccol = true →
      idc ≠ ccol → idc ≠ dcol →
      (∀ c ∈ goal.colNames, c ≠ dcol ++ "_y" ∧ c ++ "_x" ≠ dcol ++ "_y" ∧
        c ≠ rdc ++ "_x" ∧ (c ++ "_x" = rdc ++ "_x" → c = rdc)) →
      dcol ≠ dcol ++ "_y" → ccol ≠ dcol ++ "_y" → ccol ++ "_y" ≠ dcol ++ "_y" →
      dcol ≠ rdc ++ "_x" → ccol ≠ rdc ++ "_x" →
      dcol ++ "_y" ≠ rdc ++ "_x" → ccol ++ "_y" ≠ rdc ++ "_x" →
      (goal.hasCol dcol = false ∨ rdc ∉ ([idc, ccol, dcol] : List String)) →
      (add_latest_diagnosis_entry goal diag ccol dcol fixed roots rdc rescol idc =
          .error (.keyError (dcol ++ "_y")) ∨
        add_latest_diagnosis_entry goal diag ccol dcol fixed roots rdc rescol idc =
          .error (.keyError (rdc ++ "_x")))) := by
  constructor
  · intro goal data parsed sdc rdc vc idc rcn hparse hidg hidd hvd hisdc hivc hgatoms
      a1 a2 a3 a4 a5 a6 a7 hmiss
    have hpn : parsed.colNames = data.colNames := (parseDateCol_ok hparse).2.1
    have hconv : ∀ c, parsed.hasCol c = data.hasCol c := by
      intro c
      unfold DF.hasCol
      rw [hpn]
    have hsdp : parsed.hasCol sdc = true := by
      rw [hconv]
      exact (parseDateCol_ok hparse).1
    have hk := @tjValid_keyerror goal parsed idc sdc vc sdc rdc
      hidg (by rw [hconv]; exact hidd) hsdp
      (by rw [hconv]; exact hvd) hisdc hivc (Or.inl rfl) hgatoms
      a1 a2 (fun hx => absurd rfl hx) (fun _ => a3) a4 a5 a6 a7 hmiss
    rcases hk with hk | hk
    · left
      simp only [add_latest_entry_before_date]
      rw [hparse, eb_ok, tjLatest_error hk, eb_error]
    · right
      simp only [add_latest_entry_before_date]
      rw [hparse, eb_ok, tjLatest_error hk, eb_error]
  · intro goal diag parsed matched ccol dcol rdc rescol idc fixed roots hparse hmatch
      hidg hidd hccd hic hidc hgatoms a1 a2 a3 a4 a5 a6 a7 hmiss
    have hpn : parsed.colNames = diag.colNames := (parseDateCol_ok hparse).2.1
    have hccp : parsed.hasCol ccol = true := by
      unfold DF.hasCol
      rw [hpn]
      exact hccd
    have hmn : matched.colNames = parsed.colNames := (matchedStage_ok hmatch).2 hccp
    have hconv : ∀ c, matched.hasCol c = diag.hasCol c := by
      intro c
      unfold DF.hasCol
      rw [hmn, hpn]
    have hk := @tjValid_keyerror goal matched idc ccol dcol dcol rdc
      hidg (by rw [hconv]; exact hidd)
      (by rw [hconv]; exact hccd)
      (by rw [hconv]; unfold DF.hasCol at *; exact (parseDateCol_ok hparse).1 ▸ rfl)
      hic hidc (Or.inr rfl) hgatoms
      a2 a1 (fun _ => a3) (fun hx => absurd rfl hx) a5 a4 a7 a6 hmiss
    rcases hk with hk | hk
    · left
      simp only [add_latest_diagnosis_entry]
      rw [hparse, eb_ok, hmatch, eb_ok, tjLatest_error hk, eb_error]
    · right
      simp only [add_latest_diagnosis_entry]
      rw [hparse, eb_ok, hmatch, eb_ok, tjLatest_error hk, eb_error]

/-- Source table whose date column name (date) differs from the
target's reference column (t0): the coupling is violated. -/
def mismatchData : DF :=
  ⟨[("idp", DType.numeric), ("date", DType.text), ("val", DType.numeric)],
   [[("idp", Value.int 1), ("date", Value.str "20200101"), ("val", Value.int 5)]]⟩

/-- mismatchData after date parsing. -/
def mismatchParsed : DF :=
  ⟨[("idp", DType.numeric), ("date", DType.dt), ("val", DType.numeric)],
   [[("idp", Value.int 1), ("date", Value.date 20200101), ("val", Value.int 5)]]⟩

/-- Witness: with source date column date and reference column t0 the
otherwise well-formed call raises KeyError for a suffixed label. -/
theorem schema_coupling_keyerror_witness :
    add_latest_entry_before_date scenarioGoal mismatchData "date" "t0" "val" none "idp" =
      .error (.keyError ("date" ++ "_y")) ∨
    add_latest_entry_before_date scenarioGoal mismatchData "date" "t0" "val" none "idp" =
      .error (.keyError ("t0" ++ "_x")) :=
  schema_coupling_keyerror.1 scenarioGoal mismatchData mismatchParsed "date" "t0" "val" "idp"
    none rfl (by decide) (by decide) (by decide) (by decide) (by decide) (by decide)
    (by decide) (by decide) (by decide) (by decide) (by decide) (by decide) (by decide)
    (Or.inl (by decide))

/-! ### Row-level structure of the merges -/

theorem rowKeys_keyedRow (r : Row) (cs : List String) :
    rowKeys (cs.map (fun c => (c, getV r c))) = cs := by
  simp only [rowKeys, List.map_map]
  exact (List.map_congr_left (fun c _ => rfl)).trans (List.map_id cs)

theorem mergeRowsFor_mem {ovl coll lks rks : List String} {rrows : List Row}
    {rcols : List (String × DType)} {lr row : Row}
    (hmem : row ∈ mergeRowsFor ovl coll lks rks rrows rcols lr) :
    (rrows.filter (fun rr => keyMatch lks rks lr rr) = [] ∧
      row = renamePairs (suffixName ovl "_x") lr ++ mergePad ovl coll rcols) ∨
    (∃ rr, rr ∈ rrows ∧ keyMatch lks rks lr rr = true ∧
      row = renamePairs (suffixName ovl "_x") lr ++
        renamePairs (suffixName ovl "_y") (dropKeys coll rr)) := by
  unfold mergeRowsFor at hmem
  cases hf : rrows.filter (fun rr => keyMatch lks rks lr rr) with
  | nil =>
    rw [hf] at hmem
    rcases List.mem_singleton.mp hmem with rfl
    exact Or.inl ⟨rfl, rfl⟩
  | cons m ms =>
    rw [hf] at hmem
    obtain ⟨rr, hrr, hrow⟩ := List.mem_map.mp hmem
    have hrr2 : rr ∈ rrows.filter (fun rr => keyMatch lks rks lr rr) := by
      rw [hf]
      exact hrr
    have hrr3 := List.mem_filter.mp hrr2
    exact Or.inr ⟨rr, hrr3.1, hrr3.2, hrow.symm⟩

theorem mergeRowsFor_rowKeys {ovl coll lks rks : List String} {rrows : List Row}
    {rcols : List (String × DType)} {lr row : Row}
    (hrk : ∀ rr ∈ rrows, rowKeys rr = rcols.map (fun p => p.1))
    (hmem : row ∈ mergeRowsFor ovl coll lks rks rrows rcols lr) :
    rowKeys row = (rowKeys lr).map (suffixName ovl "_x") ++
      ((dropKeys coll rcols).map (fun p => p.1)).map (suffixName ovl "_y") := by
  rcases mergeRowsFor_mem hmem with ⟨-, rfl⟩ | ⟨rr, hrr, -, rfl⟩
  · rw [rowKeys_append, rowKeys_renamePairs]
    unfold mergePad
    unfold rowKeys
    simp [List.map_map]
  · rw [rowKeys_append, rowKeys_renamePairs, rowKeys_renamePairs]
    have : rowKeys (dropKeys coll rr) = (dropKeys coll rcols).map (fun p => p.1) := by
      unfold rowKeys
      rw [dropKeys_names, dropKeys_names]
      rw [show rr.map (fun p => p.1) = rcols.map (fun p => p.1) from hrk rr hrr]
    rw [this]

theorem renamePairs_eq_self {α : Type} {f : String → String} {l : List (String × α)}
    (h : ∀ c, f c = c) : renamePairs f l = l := by
  unfold renamePairs
  have : ∀ p ∈ l, (f p.1, p.2) = p := fun p _ => by rw [h p.1]
  rw [List.map_congr_left this]
  exact List.map_id' l

theorem getV_allNa {l : Row} {c : String} (h : ∀ p ∈ l, p.2 = Value.na) :
    getV l c = Value.na := by
  induction l with
  | nil => rfl
  | cons p ps ih =>
    unfold getV
    simp only [alookup_cons]
    by_cases hp : p.1 = c
    · rw [if_pos hp]
      exact h p (List.mem_cons_self p ps)
    · rw [if_neg hp]
      exact ih (fun q hq => h q (List.mem_cons_of_mem p hq))

theorem mergePad_values {ovl coll : List String} {rcols : List (String × DType)} :
    ∀ p ∈ mergePad ovl coll rcols, p.2 = Value.na := by
  intro p hp
  obtain ⟨q, -, rfl⟩ := List.mem_map.mp hp
  rfl

theorem getV_filter_ne {r : Row} {d c : String} (h : c ≠ d) :
    getV (r.filter (fun p => !(p.1 = d))) c = getV r c := by
  induction r with
  | nil => rfl
  | cons p ps ih =>
    by_cases hp : p.1 = d
    · rw [List.filter_cons_of_neg (by simp [hp])]
      rw [ih]
      unfold getV
      simp only [alookup_cons]
      rw [if_neg (fun hh => h (by rw [← hh, hp]))]
    · rw [List.filter_cons_of_pos (by simp [hp])]
      unfold getV at ih ⊢
      simp only [alookup_cons]
      by_cases hpc : p.1 = c
      · rw [if_pos hpc, if_pos hpc]
      · rw [if_neg hpc, if_neg hpc]
        exact ih

theorem getV_replaceBlank_self (r : Row) (c : String) :
    getV (r.map (fun p => if p.1 = c then (p.1, blankToNa p.2) else p)) c =
      blankToNa (getV r c) := by
  induction r with
  | nil => rfl
  | cons p ps ih =>
    have hkey : (if p.1 = c then (p.1, blankToNa p.2) else p).1 = p.1 := by split <;> rfl
    unfold getV at ih ⊢
    simp only [List.map_cons, alookup_cons, hkey]
    by_cases hp : p.1 = c
    · rw [if_pos hp, if_pos hp]
      simp [hp]
    · rw [if_neg hp, if_neg hp]
      exact ih

theorem keyMatch_pair {x1 x2 y1 y2 : String} {lr rr : Row} :
    keyMatch [x1, x2] [y1, y2] lr rr = true ↔
      getV lr x1 = getV rr y1 ∧ getV lr x2 = getV rr y2 := by
  simp [keyMatch]

theorem renUpd_pair (x1 t1 x2 t2 k : String) :
    renUpd [(x1, t1), (x2, t2)] k = if x1 = k then t1 else if x2 = k then t2 else k := by
  unfold renUpd
  by_cases h1 : x1 = k <;> by_cases h2 : x2 = k <;> simp [h1, h2]

theorem applyNumericFilter_ok {df : DF} {c : String} {out : DF}
    (h : applyNumericFilter df c = .ok out) :
    df.hasCol c = true ∧ out.cols = df.cols ∧ out.rows.Sublist df.rows ∧
    (df.dtypeOf c = some DType.numeric →
      out.rows = df.rows.filter (fun r => geZero (getV r c))) := by
  unfold applyNumericFilter at h
  split at h
  next h1 =>
    split at h
    next h2 =>
      cases h
      exact ⟨h1, rfl, List.filter_sublist _, fun _ => rfl⟩
    next h2 =>
      cases h
      exact ⟨h1, rfl, List.Sublist.refl _, fun hh => absurd hh h2⟩
  next => exact Except.noConfusion h

theorem dropColumn_ok {df : DF} {c : String} {out : DF}
    (h : dropColumn df c = .ok out) :
    df.hasCol c = true ∧
    out = ⟨df.cols.filter (fun p => !(p.1 = c)),
           df.rows.map (fun r => r.filter (fun p => !(p.1 = c)))⟩ := by
  unfold dropColumn at h
  split at h
  next h1 =>
    cases h
    exact ⟨h1, rfl⟩
  next => exact Except.noConfusion h

theorem replaceBlankCol_ok {df : DF} {c : String} {out : DF}
    (h : replaceBlankCol df c = .ok out) :
    df.hasCol c = true ∧
    out = ⟨df.cols, df.rows.map
      (fun r => r.map (fun p => if p.1 = c then (p.1, blankToNa p.2) else p))⟩ := by
  unfold replaceBlankCol at h
  split at h
  next h1 =>
    cases h
    exact ⟨h1, rfl⟩
  next => exact Except.noConfusion h

theorem tjFinish_ok {goal latest : DF} {idc rdc rescol : String} {out : DF}
    (h : tjFinish goal latest idc rdc rescol = .ok out) :
    ∃ sel2 merged, selectCols latest [idc, "ref_date", rescol] = .ok sel2 ∧
      mergeLR goal sel2 [idc, rdc] [idc, "ref_date"] = .ok merged ∧
      dropColumn merged "ref_date" = .ok out := by
  unfold tjFinish at h
  cases hs : selectCols latest [idc, "ref_date", rescol] with
  | error e =>
    rw [hs, eb_error] at h
    exact Except.noConfusion h
  | ok sel2 =>
    rw [hs, eb_ok] at h
    cases hm : mergeLR goal sel2 [idc, rdc] [idc, "ref_date"] with
    | error e =>
      rw [hm, eb_error] at h
      exact Except.noConfusion h
    | ok merged =>
      rw [hm, eb_ok] at h
      refine ⟨sel2, merged, ?_, ?_, h⟩ <;> first | rfl | assumption

/-! ### Keys of the joined rows and transport through the rename -/

theorem tjValid_rowKeys {goal src : DF} {idc a b dcol rdc : String} {v : DF}
    (hv : tjValid goal src idc a b dcol rdc = .ok v)
    (hWF : WF goal) (hia : idc ≠ a) (hib : idc ≠ b) :
    ∃ ovl : List String,
      (∀ c, c ∈ ovl ↔ c ∈ goal.colNames ∧ (c = a ∨ c = b)) ∧
      v.cols.map (fun p => p.1) =
        goal.colNames.map (suffixName ovl "_x") ++ [a, b].map (suffixName ovl "_y") ∧
      ∀ row ∈ v.rows, rowKeys row =
        goal.colNames.map (suffixName ovl "_x") ++ [a, b].map (suffixName ovl "_y") := by
  obtain ⟨sel, help, hsel, hm, -, -, hvdef⟩ := tjValid_ok hv
  have hselnames := selectCols_colNames hsel
  obtain ⟨-, hseldef⟩ := selectCols_ok hsel
  obtain ⟨-, -, hhelpdef⟩ := mergeLR_ok hm
  have hanei : a ≠ idc := fun hh => hia hh.symm
  have hbnei : b ≠ idc := fun hh => hib hh.symm
  have hfilt : [idc, a, b].filter (fun c => !(([idc] : List String).contains c)) = [a, b] := by
    simp [List.filter_cons, hanei, hbnei]
  have hseln2 : sel.cols.map (fun p => p.1) = [idc, a, b] := hselnames
  have hdropnames : (dropKeys (collapsedKeys [idc] [idc]) sel.cols).map (fun p => p.1) =
      [a, b] := by
    rw [collapsedKeys_single, dropKeys_names, hseln2, hfilt]
  refine ⟨mergeOverlap goal sel [idc] [idc], ?_, ?_, ?_⟩
  · intro c
    rw [mem_mergeOverlap, hselnames, collapsedKeys_single]
    simp only [List.mem_cons, List.not_mem_nil, or_false, List.mem_singleton]
    constructor
    · rintro ⟨h1, h2, h3⟩
      rcases h2 with rfl | rfl | rfl
      · exact absurd rfl h3
      · exact ⟨h1, Or.inl rfl⟩
      · exact ⟨h1, Or.inr rfl⟩
    · rintro ⟨h1, h2⟩
      rcases h2 with rfl | rfl
      · exact ⟨h1, Or.inr (Or.inl rfl), fun hh => hia hh.symm⟩
      · exact ⟨h1, Or.inr (Or.inr rfl), fun hh => hib hh.symm⟩
  · simp only [hvdef, hhelpdef]
    rw [List.map_append, names_renamePairs, names_renamePairs, hdropnames]
    rfl
  · intro row hrow
    rw [hvdef] at hrow
    have hrow2 : row ∈ help.rows := (List.mem_filter.mp hrow).1
    rw [hhelpdef] at hrow2
    obtain ⟨lr, hlr, hrowin⟩ := List.mem_flatMap.mp hrow2
    have hrk : ∀ rr ∈ sel.rows, rowKeys rr = sel.cols.map (fun p => p.1) := by
      intro rr hrr
      rw [hseldef] at hrr
      obtain ⟨r0, -, rfl⟩ := List.mem_map.mp hrr
      rw [rowKeys_keyedRow, hseln2]
    have := mergeRowsFor_rowKeys hrk hrowin
    rw [this, hWF lr hlr, hdropnames]

/-- The decidable name-hygiene assumptions under which the rename of the
latest stage behaves like a permutation of labels: the helper names
ref_date and (when it is a genuinely new name) the result column are
fresh, and the rename sources and targets do not collide with the id,
the merged date columns, or each other. -/
def TJNameAtoms (goal : DF) (idc a b dcol rdc ycol rescol : String) : Prop :=
  idc ≠ a ∧ idc ≠ b ∧
  (∀ c ∈ goal.colNames, c ≠ "ref_date" ∧ c ++ "_x" ≠ "ref_date" ∧
    (rescol = ycol ∨ (c ≠ rescol ∧ c ++ "_x" ≠ rescol))) ∧
  a ≠ "ref_date" ∧ a ++ "_y" ≠ "ref_date" ∧ b ≠ "ref_date" ∧ b ++ "_y" ≠ "ref_date" ∧
  (rescol = ycol ∨ (a ≠ rescol ∧ a ++ "_y" ≠ rescol ∧ b ≠ rescol ∧ b ++ "_y" ≠ rescol)) ∧
  "ref_date" ≠ idc ∧ rescol ≠ idc ∧ idc ≠ rdc ++ "_x" ∧ idc ≠ ycol ∧
  rescol ≠ "ref_date" ∧ ycol ≠ rdc ++ "_x" ∧ rescol ≠ dcol ++ "_y" ∧ ycol ≠ dcol ++ "_y" ∧
  dcol ++ "_y" ≠ rdc ++ "_x" ∧ dcol ++ "_y" ≠ "ref_date"

instance (goal : DF) (idc a b dcol rdc ycol rescol : String) :
    Decidable (TJNameAtoms goal idc a b dcol rdc ycol rescol) := by
  unfold TJNameAtoms
  infer_instance

theorem ren_conditions_of_k {idc dcol rdc ycol rescol k : String}
    (hknr : k ≠ "ref_date") (hkres : rescol = ycol ∨ k ≠ rescol)
    (hrdne : "ref_date" ≠ idc) (hresi : rescol ≠ idc) (hirdt : idc ≠ rdc ++ "_x")
    (hiy : idc ≠ ycol) (hresr : rescol ≠ "ref_date") (hyrdt : ycol ≠ rdc ++ "_x")
    (hressdt : rescol ≠ dcol ++ "_y") (hysdt : ycol ≠ dcol ++ "_y")
    (hsdtrdt : dcol ++ "_y" ≠ rdc ++ "_x") (hsdtnr : dcol ++ "_y" ≠ "ref_date") :
    (renUpd [(rdc ++ "_x", "ref_date"), (ycol, rescol)] k = "ref_date" ↔ k = rdc ++ "_x") ∧
    (renUpd [(rdc ++ "_x", "ref_date"), (ycol, rescol)] k = rescol ↔ k = ycol) ∧
    (renUpd [(rdc ++ "_x", "ref_date"), (ycol, rescol)] k = idc ↔ k = idc) ∧
    (renUpd [(rdc ++ "_x", "ref_date"), (ycol, rescol)] k = dcol ++ "_y" ↔
      k = dcol ++ "_y") := by
  rw [renUpd_pair]
  by_cases h1 : rdc ++ "_x" = k
  · rw [if_pos h1]
    subst h1
    refine ⟨⟨fun _ => rfl, fun _ => rfl⟩, ?_, ?_, ?_⟩
    · exact ⟨fun hh => absurd hh.symm hresr, fun hh => absurd hh.symm hyrdt⟩
    · exact ⟨fun hh => absurd hh hrdne, fun hh => absurd hh.symm hirdt⟩
    · exact ⟨fun hh => absurd hh.symm hsdtnr, fun hh => absurd hh.symm hsdtrdt⟩
  · rw [if_neg h1]
    by_cases h2 : ycol = k
    · rw [if_pos h2]
      subst h2
      refine ⟨?_, ⟨fun _ => rfl, fun _ => rfl⟩, ?_, ?_⟩
      · exact ⟨fun hh => absurd hh hresr, fun hh => absurd hh (fun hhh => h1 hhh.symm)⟩
      · exact ⟨fun hh => absurd hh hresi, fun hh => absurd hh.symm hiy⟩
      · exact ⟨fun hh => absurd hh hressdt, fun hh => absurd hh hysdt⟩
    · rw [if_neg h2]
      refine ⟨?_, ?_, Iff.rfl, Iff.rfl⟩
      · exact ⟨fun hh => absurd hh hknr, fun hh => absurd hh.symm h1⟩
      · constructor
        · intro hh
          rcases hkres with hye | hne
          · rw [hh, hye]
          · exact absurd hh hne
        · intro hh
          exact absurd hh.symm h2

theorem tjValid_ren_conditions {goal src : DF} {idc a b dcol rdc ycol rescol : String}
    {v : DF}
    (hv : tjValid goal src idc a b dcol rdc = .ok v) (hWF : WF goal)
    (hat : TJNameAtoms goal idc a b dcol rdc ycol rescol) :
    (∀ row ∈ v.rows, ∀ k ∈ rowKeys row,
      (renUpd [(rdc ++ "_x", "ref_date"), (ycol, rescol)] k = "ref_date" ↔ k = rdc ++ "_x") ∧
      (renUpd [(rdc ++ "_x", "ref_date"), (ycol, rescol)] k = rescol ↔ k = ycol) ∧
      (renUpd [(rdc ++ "_x", "ref_date"), (ycol, rescol)] k = idc ↔ k = idc) ∧
      (renUpd [(rdc ++ "_x", "ref_date"), (ycol, rescol)] k = dcol ++ "_y" ↔
        k = dcol ++ "_y")) ∧
    (∀ k ∈ v.cols.map (fun p => p.1),
      (renUpd [(rdc ++ "_x", "ref_date"), (ycol, rescol)] k = "ref_date" ↔ k = rdc ++ "_x") ∧
      (renUpd [(rdc ++ "_x", "ref_date"), (ycol, rescol)] k = rescol ↔ k = ycol) ∧
      (renUpd [(rdc ++ "_x", "ref_date"), (ycol, rescol)] k = idc ↔ k = idc) ∧
      (renUpd [(rdc ++ "_x", "ref_date"), (ycol, rescol)] k = dcol ++ "_y" ↔
        k = dcol ++ "_y")) := by
  obtain ⟨hia, hib, hg, ha1, ha2, hb1, hb2, hres, hrdne, hresi, hirdt, hiy, hresr,
    hyrdt, hressdt, hysdt, hsdtrdt, hsdtnr⟩ := hat
  obtain ⟨ovl, hovl, hcolkeys, hkeys⟩ := tjValid_rowKeys hv hWF hia hib
  have hofk : ∀ k, k ∈ goal.colNames.map (suffixName ovl "_x") ++
      [a, b].map (suffixName ovl "_y") →
      (renUpd [(rdc ++ "_x", "ref_date"), (ycol, rescol)] k = "ref_date" ↔ k = rdc ++ "_x") ∧
      (renUpd [(rdc ++ "_x", "ref_date"), (ycol, rescol)] k = rescol ↔ k = ycol) ∧
      (renUpd [(rdc ++ "_x", "ref_date"), (ycol, rescol)] k = idc ↔ k = idc) ∧
      (renUpd [(rdc ++ "_x", "ref_date"), (ycol, rescol)] k = dcol ++ "_y" ↔
        k = dcol ++ "_y") := by
    intro k hk
    have hfacts : k ≠ "ref_date" ∧ (rescol = ycol ∨ k ≠ rescol) := by
      rcases List.mem_append.mp hk with hk | hk
      · obtain ⟨c, hc, rfl⟩ := List.mem_map.mp hk
        rw [suffixName_eq]
        by_cases hov : c ∈ ovl
        · rw [if_pos hov]
          refine ⟨(hg c hc).2.1, ?_⟩
          rcases (hg c hc).2.2 with hye | hne
          · exact Or.inl hye
          · exact Or.inr hne.2
        · rw [if_neg hov]
          refine ⟨(hg c hc).1, ?_⟩
          rcases (hg c hc).2.2 with hye | hne
          · exact Or.inl hye
          · exact Or.inr hne.1
      · obtain ⟨c, hc, rfl⟩ := List.mem_map.mp hk
        rw [suffixName_eq]
        simp only [List.mem_cons, List.not_mem_nil, or_false] at hc
        rcases hc with rfl | rfl
        · by_cases hov : c ∈ ovl
          · rw [if_pos hov]
            refine ⟨ha2, ?_⟩
            rcases hres with hye | hne
            · exact Or.inl hye
            · exact Or.inr hne.2.1
          · rw [if_neg hov]
            refine ⟨ha1, ?_⟩
            rcases hres with hye | hne
            · exact Or.inl hye
            · exact Or.inr hne.1
        · by_cases hov : c ∈ ovl
          · rw [if_pos hov]
            refine ⟨hb2, ?_⟩
            rcases hres with hye | hne
            · exact Or.inl hye
            · exact Or.inr hne.2.2.2
          · rw [if_neg hov]
            refine ⟨hb1, ?_⟩
            rcases hres with hye | hne
            · exact Or.inl hye
            · exact Or.inr hne.2.2.1
    exact ren_conditions_of_k hfacts.1 hfacts.2 hrdne hresi hirdt hiy hresr hyrdt
      hressdt hysdt hsdtrdt hsdtnr
  constructor
  · intro row hrow k hk
    exact hofk k (by rw [← hkeys row hrow]; exact hk)
  · intro k hk
    exact hofk k (by rw [← hcolkeys]; exact hk)

theorem tjLatest_rows_transport {goal src : DF} {idc a b dcol rdc ycol rescol : String}
    {latest : DF}
    (hlat : tjLatest goal src idc a b dcol rdc ycol rescol = .ok latest)
    (hWF : WF goal)
    (hat : TJNameAtoms goal idc a b dcol rdc ycol rescol) :
    ∃ v, tjValid goal src idc a b dcol rdc = .ok v ∧
      latest.cols = renamePairs (renUpd [(rdc ++ "_x", "ref_date"), (ycol, rescol)]) v.cols ∧
      latest.rows.Pairwise (fun r1 r2 =>
        (getV r1 idc, getV r1 "ref_date") ≠ (getV r2 idc, getV r2 "ref_date")) ∧
      ∀ r1 ∈ latest.rows, ∃ r0,
        r0 ∈ groupLatestRows v.rows idc (rdc ++ "_x") (dcol ++ "_y") ∧
        getV r1 idc = getV r0 idc ∧ getV r1 "ref_date" = getV r0 (rdc ++ "_x") ∧
        getV r1 rescol = getV r0 ycol ∧ getV r1 (dcol ++ "_y") = getV r0 (dcol ++ "_y") := by
  obtain ⟨v, latest0, hv, hgi, hlatdef⟩ := tjLatest_ok hlat
  obtain ⟨-, -, -, hl0def⟩ := groupIdxmax_ok hgi
  have hcond := (@tjValid_ren_conditions _ _ _ _ _ _ _ ycol rescol _ hv hWF hat).1
  have hsub : ∀ r0 ∈ latest0.rows, r0 ∈ v.rows := by
    intro r0 hr0
    rw [hl0def] at hr0
    exact groupLatestRows_sub hr0
  have htr : ∀ r0 ∈ latest0.rows,
      getV (renamePairs (renUpd [(rdc ++ "_x", "ref_date"), (ycol, rescol)]) r0) idc =
        getV r0 idc ∧
      getV (renamePairs (renUpd [(rdc ++ "_x", "ref_date"), (ycol, rescol)]) r0)
          "ref_date" = getV r0 (rdc ++ "_x") ∧
      getV (renamePairs (renUpd [(rdc ++ "_x", "ref_date"), (ycol, rescol)]) r0) rescol =
        getV r0 ycol ∧
      getV (renamePairs (renUpd [(rdc ++ "_x", "ref_date"), (ycol, rescol)]) r0)
          (dcol ++ "_y") = getV r0 (dcol ++ "_y") := by
    intro r0 hr0
    have hc := hcond r0 (hsub r0 hr0)
    refine ⟨?_, ?_, ?_, ?_⟩
    · exact getV_renamePairs (fun k hk => (hc k hk).2.2.1)
    · exact getV_renamePairs (fun k hk => (hc k hk).1)
    · exact getV_renamePairs (fun k hk => (hc k hk).2.1)
    · exact getV_renamePairs (fun k hk => (hc k hk).2.2.2)
  refine ⟨v, hv, ?_, ?_, ?_⟩
  · rw [hlatdef]
    show renamePairs _ latest0.cols = _
    rw [hl0def]
  · rw [hlatdef]
    show (latest0.rows.map
      (renamePairs (renUpd [(rdc ++ "_x", "ref_date"), (ycol, rescol)]))).Pairwise _
    rw [List.pairwise_map]
    have hpw : latest0.rows.Pairwise (fun r1 r2 =>
        (getV r1 idc, getV r1 (rdc ++ "_x")) ≠ (getV r2 idc, getV r2 (rdc ++ "_x"))) := by
      rw [hl0def]
      exact groupLatestRows_pairwise v.rows idc (rdc ++ "_x") (dcol ++ "_y")
    refine hpw.imp_of_mem ?_
    intro r1 r2 h1 h2 hne
    obtain ⟨e1, e2, -, -⟩ := htr r1 h1
    obtain ⟨f1, f2, -, -⟩ := htr r2 h2
    rw [e1, e2, f1, f2]
    exact hne
  · intro r1 hr1
    rw [hlatdef] at hr1
    obtain ⟨r0, hr0, rfl⟩ := List.mem_map.mp hr1
    obtain ⟨e1, e2, e3, e4⟩ := htr r0 hr0
    have hr0g : r0 ∈ groupLatestRows v.rows idc (rdc ++ "_x") (dcol ++ "_y") := by
      rw [hl0def] at hr0
      exact hr0
    exact ⟨r0, hr0g, e1, e2, e3, e4⟩

/-- Shared counting argument: once the attached latest frame has pairwise
distinct (id, ref_date) keys, the final merge matches each target row at
most once, so the merged-and-dropped result has exactly one row per
target row. -/
theorem tjFinish_length {goal latest2 : DF} {idc rdc rescol : String} {out : DF}
    (hfin : tjFinish goal latest2 idc rdc rescol = .ok out)
    (hpw : latest2.rows.Pairwise (fun r1 r2 =>
      (getV r1 idc, getV r1 "ref_date") ≠ (getV r2 idc, getV r2 "ref_date"))) :
    out.rows.length = goal.rows.length := by
  obtain ⟨sel2, merged, hsel2, hm2, hdrop⟩ := tjFinish_ok hfin
  obtain ⟨-, hsel2def⟩ := selectCols_ok hsel2
  have hpw3 : sel2.rows.Pairwise (fun r1 r2 =>
      (getV r1 idc, getV r1 "ref_date") ≠ (getV r2 idc, getV r2 "ref_date")) := by
    simp only [hsel2def]
    rw [List.pairwise_map]
    refine hpw.imp_of_mem ?_
    intro r1 r2 _ _ hne
    rw [getV_keyedRow r1 (show idc ∈ [idc, "ref_date", rescol] by simp),
      getV_keyedRow r1 (show "ref_date" ∈ [idc, "ref_date", rescol] by simp),
      getV_keyedRow r2 (show idc ∈ [idc, "ref_date", rescol] by simp),
      getV_keyedRow r2 (show "ref_date" ∈ [idc, "ref_date", rescol] by simp)]
    exact hne
  obtain ⟨-, -, hmdef⟩ := mergeLR_ok hm2
  have hmlen : merged.rows.length = goal.rows.length := by
    rw [hmdef]
    refine flatMap_length_one ?_
    intro lr hlr
    refine mergeRowsFor_length ?_
    refine @filter_le_one_of_pairwise _ _ _ _ _ hpw3 (getV lr idc, getV lr rdc) ?_
    intro rr hrr
    obtain ⟨h1, h2⟩ := keyMatch_pair.mp hrr
    rw [h1, h2]
  obtain ⟨-, houtdef⟩ := dropColumn_ok hdrop
  rw [houtdef]
  show (merged.rows.map _).length = _
  rw [List.length_map, hmlen]

/-- C3: on every successful call of either operation the returned table
has exactly as many rows as the input target table, including targets
with duplicate (id, reference-date) pairs and empty candidate sets: the
latest frame carries at most one row per (id, reference-date) key, so
the left merge back onto the target neither duplicates nor drops target
rows. -/
theorem output_row_count :
    (∀ (goal data : DF) (sdc rdc vc : String) (rcn : Option String) (idc : String)
        (out : DF),
      add_latest_entry_before_date goal data sdc rdc vc rcn idc = .ok out →
      WF goal →
      TJNameAtoms goal idc sdc vc sdc rdc vc (rcn.getD vc) →
      out.rows.length = goal.rows.length) ∧
    (∀ (goal diag : DF) (ccol dcol : String) (fixed roots : List String)
        (rdc rescol idc : String) (out : DF),
      add_latest_diagnosis_entry goal diag ccol dcol fixed roots rdc rescol idc = .ok out →
      WF goal →
      TJNameAtoms goal idc ccol dcol dcol rdc ccol rescol →
      out.rows.length = goal.rows.length) := by
  constructor
  · intro goal data sdc rdc vc rcn idc out h hWF hat
    obtain ⟨parsed, latest1, latest2, hp, hlat, hnum, hfin, hchk⟩ := value_op_ok h
    obtain ⟨v, hv, hcols, hpw1, hprov⟩ := tjLatest_rows_transport hlat hWF hat
    obtain ⟨-, -, hsub2, -⟩ := applyNumericFilter_ok hnum
    exact tjFinish_length hfin (hpw1.sublist hsub2)
  · intro goal diag ccol dcol fixed roots rdc rescol idc out h hWF hat
    obtain ⟨parsed, matched, latest, updated0, hp, hms, hlat, hfin, hrep, hchk⟩ := diag_op_ok h
    obtain ⟨v, hv, hcols, hpw1, hprov⟩ := tjLatest_rows_transport hlat hWF hat
    have hlen0 := tjFinish_length hfin hpw1
    obtain ⟨-, houtdef⟩ := replaceBlankCol_ok hrep
    rw [houtdef]
    show (updated0.rows.map _).length = _
    rw [List.length_map, hlen0]

/-- The full output of the Latest-Value Attacher on the scenario input:
one row, result cell missing. -/
def scenarioOut : DF :=
  ⟨[("idp", DType.numeric), ("t0", DType.dt), ("val", DType.numeric)],
   [[("idp", Value.int 1), ("t0", Value.date 20200110), ("val", Value.na)]]⟩

/-- Witness: the row-count theorem applied to the concrete scenario call,
whose output has exactly the target's one row. -/
theorem output_row_count_witness :
    scenarioOut.rows.length = scenarioGoal.rows.length :=
  output_row_count.1 scenarioGoal scenarioData "t0" "t0" "val" none "idp" scenarioOut rfl
    (by decide) (by decide)

theorem getV_replaceBlank_other (r : Row) {c c2 : String} (h : c2 ≠ c) :
    getV (r.map (fun p => if p.1 = c then (p.1, blankToNa p.2) else p)) c2 = getV r c2 := by
  induction r with
  | nil => rfl
  | cons p ps ih =>
    have hkey : (if p.1 = c then (p.1, blankToNa p.2) else p).1 = p.1 := by split <;> rfl
    unfold getV at ih ⊢
    simp only [List.map_cons, alookup_cons, hkey]
    by_cases hp : p.1 = c2
    · rw [if_pos hp, if_pos hp]
      have hpc : ¬p.1 = c := fun hh => h (by rw [← hh, hp])
      rw [if_neg hpc]
    · rw [if_neg hp, if_neg hp]
      exact ih

/-- Where each output row of the final merge comes from: its id and
reference-date cells are the target row's, and its result cell is either
missing (no matching latest row) or copied from a latest row agreeing
with the target row on the (id, ref_date) key. -/
theorem tjFinish_provenance {goal latest2 : DF} {idc rdc rescol : String} {out : DF}
    (hfin : tjFinish goal latest2 idc rdc rescol = .ok out)
    (hWF : WF goal)
    (hrf : "ref_date" ∉ goal.colNames) (hrs : rescol ∉ goal.colNames)
    (hrdcref : rdc ≠ "ref_date") (hri : "ref_date" ≠ idc) (hresi : rescol ≠ idc)
    (hrr : "ref_date" ≠ rescol) :
    ∀ o ∈ out.rows, ∃ gr, gr ∈ goal.rows ∧
      getV o rdc = getV gr rdc ∧ getV o idc = getV gr idc ∧
      (getV o rescol = Value.na ∨
        ∃ r2, r2 ∈ latest2.rows ∧ getV o rescol = getV r2 rescol ∧
          getV gr idc = getV r2 idc ∧ getV gr rdc = getV r2 "ref_date") := by
  obtain ⟨sel2, merged, hsel2, hm2, hdrop⟩ := tjFinish_ok hfin
  have hsel2names := selectCols_colNames hsel2
  obtain ⟨-, hsel2def⟩ := selectCols_ok hsel2
  obtain ⟨hkl, -, hmdef⟩ := mergeLR_ok hm2
  have hrdcg : rdc ∈ goal.colNames := hasCol_iff.mp (hkl rdc (by simp))
  have hidcg : idc ∈ goal.colNames := hasCol_iff.mp (hkl idc (by simp))
  have hcoll2 : collapsedKeys [idc, rdc] [idc, "ref_date"] = [idc] := by
    simp [collapsedKeys, hrdcref]
  have hovl2 : ∀ c, c ∉ mergeOverlap goal sel2 [idc, rdc] [idc, "ref_date"] := by
    intro c hc
    obtain ⟨hg2, hs2, hnc⟩ := mem_mergeOverlap.mp hc
    rw [hsel2names] at hs2
    rw [hcoll2] at hnc
    simp only [List.mem_cons, List.not_mem_nil, or_false] at hs2
    rcases hs2 with rfl | rfl | rfl
    · exact hnc (by simp)
    · exact hrf hg2
    · exact hrs hg2
  have hsfx : ∀ sfx c, suffixName (mergeOverlap goal sel2 [idc, rdc] [idc, "ref_date"]) sfx c = c :=
    fun sfx c => by rw [suffixName_eq, if_neg (hovl2 c)]
  intro o ho
  obtain ⟨-, houtdef⟩ := dropColumn_ok hdrop
  rw [houtdef] at ho
  obtain ⟨o0, ho0, rfl⟩ := List.mem_map.mp ho
  rw [hmdef] at ho0
  obtain ⟨gr, hgr, hin⟩ := List.mem_flatMap.mp ho0
  have hgrkeys : rowKeys gr = goal.colNames := hWF gr hgr
  have hlren : renamePairs (suffixName
      (mergeOverlap goal sel2 [idc, rdc] [idc, "ref_date"]) "_x") gr = gr :=
    renamePairs_eq_self (hsfx "_x")
  have hgetrdc : ∀ rest : Row, getV (gr ++ rest) rdc = getV gr rdc :=
    fun rest => getV_append_of_mem rest (by rw [hgrkeys]; exact hrdcg)
  have hgetidc : ∀ rest : Row, getV (gr ++ rest) idc = getV gr idc :=
    fun rest => getV_append_of_mem rest (by rw [hgrkeys]; exact hidcg)
  have hgetres : ∀ rest : Row, getV (gr ++ rest) rescol = getV rest rescol :=
    fun rest => getV_append_of_not_mem (by rw [hgrkeys]; exact hrs)
  rcases mergeRowsFor_mem hin with ⟨-, hpad⟩ | ⟨rr2, hrr2, hkm, hmatch⟩
  · rw [hlren] at hpad
    subst hpad
    refine ⟨gr, hgr, ?_, ?_, Or.inl ?_⟩
    · rw [getV_filter_ne hrdcref, hgetrdc]
    · rw [getV_filter_ne (fun hh => hri hh.symm), hgetidc]
    · rw [getV_filter_ne (fun hh => hrr hh.symm), hgetres]
      exact getV_allNa mergePad_values
  · rw [hlren] at hmatch
    rw [hsel2def] at hrr2
    obtain ⟨r2, hr2, rfl⟩ := List.mem_map.mp hrr2
    have hdropped : dropKeys (collapsedKeys [idc, rdc] [idc, "ref_date"])
        ([idc, "ref_date", rescol].map (fun c => (c, getV r2 c))) =
        [("ref_date", getV r2 "ref_date"), (rescol, getV r2 rescol)] := by
      rw [hcoll2]
      simp [dropKeys, List.filter, hri, hresi]
    have hrren : renamePairs (suffixName
        (mergeOverlap goal sel2 [idc, rdc] [idc, "ref_date"]) "_y")
        (dropKeys (collapsedKeys [idc, rdc] [idc, "ref_date"])
          ([idc, "ref_date", rescol].map (fun c => (c, getV r2 c)))) =
        [("ref_date", getV r2 "ref_date"), (rescol, getV r2 rescol)] := by
      rw [hdropped]
      exact renamePairs_eq_self (hsfx "_y")
    rw [hrren] at hmatch
    subst hmatch
    obtain ⟨hk1, hk2⟩ := keyMatch_pair.mp hkm
    rw [getV_keyedRow r2 (show idc ∈ [idc, "ref_date", rescol] by simp)] at hk1
    rw [getV_keyedRow r2 (show "ref_date" ∈ [idc, "ref_date", rescol] by simp)] at hk2
    refine ⟨gr, hgr, ?_, ?_, Or.inr ⟨r2, hr2, ?_, hk1, hk2⟩⟩
    · rw [getV_filter_ne hrdcref, hgetrdc]
    · rw [getV_filter_ne (fun hh => hri hh.symm), hgetidc]
    · rw [getV_filter_ne (fun hh => hrr hh.symm), hgetres]
      unfold getV
      simp only [alookup_cons]
      rw [if_neg hrr]
      simp

/-- C4: every non-missing result cell was supplied by a latest-selected
source record whose (still unparsed-into-the-output) source date is
strictly earlier than that output row's reference date; records dated on
or after the reference date are never selected, because the valid stage
keeps only joined rows with source date strictly below the reference
date.  Stated for both operations. -/
theorem result_from_strictly_prior_record :
    (∀ (goal data : DF) (sdc rdc vc : String) (rcn : Option String) (idc : String)
        (out : DF),
      add_latest_entry_before_date goal data sdc rdc vc rcn idc = .ok out →
      WF goal →
      TJNameAtoms goal idc sdc vc sdc rdc vc (rcn.getD vc) →
      "ref_date" ∉ goal.colNames → (rcn.getD vc) ∉ goal.colNames → rdc ≠ "ref_date" →
      ∀ o ∈ out.rows, getV o (rcn.getD vc) ≠ Value.na →
        ∃ parsed v r0, parseDateCol data sdc = .ok parsed ∧
          tjValid goal parsed idc sdc vc sdc rdc = .ok v ∧
          r0 ∈ groupLatestRows v.rows idc (rdc ++ "_x") (sdc ++ "_y") ∧
          getV r0 idc = getV o idc ∧ getV o (rcn.getD vc) = getV r0 vc ∧
          ∃ d rv, getV r0 (sdc ++ "_y") = Value.date d ∧ getV o rdc = Value.date rv ∧
            d < rv) ∧
    (∀ (goal diag : DF) (ccol dcol : String) (fixed roots : List String)
        (rdc rescol idc : String) (out : DF),
      add_latest_diagnosis_entry goal diag ccol dcol fixed roots rdc rescol idc = .ok out →
      WF goal →
      TJNameAtoms goal idc ccol dcol dcol rdc ccol rescol →
      "ref_date" ∉ goal.colNames → rescol ∉ goal.colNames → rdc ≠ "ref_date" →
      rdc ≠ rescol →
      ∀ o ∈ out.rows, getV o rescol ≠ Value.na →
        ∃ parsed matched v r0, parseDateCol diag dcol = .ok parsed ∧
          matchedStage parsed ccol fixed roots = .ok matched ∧
          tjValid goal matched idc ccol dcol dcol rdc = .ok v ∧
          r0 ∈ groupLatestRows v.rows idc (rdc ++ "_x") (dcol ++ "_y") ∧
          getV r0 idc = getV o idc ∧ getV o rescol = blankToNa (getV r0 ccol) ∧
          ∃ d rv, getV r0 (dcol ++ "_y") = Value.date d ∧ getV o rdc = Value.date rv ∧
            d < rv) := by
  constructor
  · intro goal data sdc rdc vc rcn idc out h hWF hat hrf hrs hrdcref o ho hne
    obtain ⟨parsed, latest1, latest2, hp, hlat, hnum, hfin, -⟩ := value_op_ok h
    obtain ⟨v, hv, -, -, hprov⟩ := tjLatest_rows_transport hlat hWF hat
    obtain ⟨-, -, hsub2, -⟩ := applyNumericFilter_ok hnum
    obtain ⟨-, -, -, -, -, -, -, -, hrdne, hresi, -, -, hresr, -, -, -, -, -⟩ := hat
    have hrr : "ref_date" ≠ rcn.getD vc := fun hh => hresr hh.symm
    obtain ⟨gr, hgr, hordc, hoidc, hcase⟩ :=
      tjFinish_provenance hfin hWF hrf hrs hrdcref hrdne hresi hrr o ho
    rcases hcase with hna | ⟨r2, hr2, hval, hid2, hrd2⟩
    · exact absurd hna hne
    · have hr2m : r2 ∈ latest1.rows := hsub2.subset hr2
      obtain ⟨r0, hr0, e1, e2, e3, e4⟩ := hprov r2 hr2m
      have hlt := tjValid_rows_pred hv r0 (groupLatestRows_sub hr0)
      obtain ⟨⟨d, hd⟩, ⟨rv, hrv⟩⟩ := ltV_true_dates hlt
      refine ⟨parsed, v, r0, hp, hv, hr0, ?_, hval.trans e3, d, rv, hd, ?_, ?_⟩
      · exact (hoidc.trans (hid2.trans e1)).symm
      · exact hordc.trans (hrd2.trans (e2.trans hrv))
      · rw [hd, hrv] at hlt
        simpa [ltV] using hlt
  · intro goal diag ccol dcol fixed roots rdc rescol idc out h hWF hat hrf hrs hrdcref
      hrdres o ho hne
    obtain ⟨parsed, matched, latest, updated0, hp, hms, hlat, hfin, hrep, -⟩ := diag_op_ok h
    obtain ⟨v, hv, -, -, hprov⟩ := tjLatest_rows_transport hlat hWF hat
    obtain ⟨-, -, -, -, -, -, -, -, hrdne, hresi, -, -, hresr, -, -, -, -, -⟩ := hat
    have hrr : "ref_date" ≠ rescol := fun hh => hresr hh.symm
    obtain ⟨-, houtdef⟩ := replaceBlankCol_ok hrep
    rw [houtdef] at ho
    obtain ⟨o0, ho0, rfl⟩ := List.mem_map.mp ho
    have hvres := getV_replaceBlank_self o0 rescol
    have hvrdc := getV_replaceBlank_other o0 hrdres
    have hvidc := getV_replaceBlank_other o0 (fun hh => hresi hh.symm)
    rw [hvres] at hne
    have hne0 : getV o0 rescol ≠ Value.na := by
      intro hna
      rw [hna] at hne
      exact hne rfl
    obtain ⟨gr, hgr, hordc, hoidc, hcase⟩ :=
      tjFinish_provenance hfin hWF hrf hrs hrdcref hrdne hresi hrr o0 ho0
    rcases hcase with hna | ⟨r2, hr2, hval, hid2, hrd2⟩
    · exact absurd hna hne0
    · obtain ⟨r0, hr0, e1, e2, e3, e4⟩ := hprov r2 hr2
      have hlt := tjValid_rows_pred hv r0 (groupLatestRows_sub hr0)
      obtain ⟨⟨d, hd⟩, ⟨rv, hrv⟩⟩ := ltV_true_dates hlt
      refine ⟨parsed, matched, v, r0, hp, hms, hv, hr0, ?_, ?_, d, rv, hd, ?_, ?_⟩
      · rw [hvidc]
        exact (hoidc.trans (hid2.trans e1)).symm
      · rw [hvres, hval, e3]
      · rw [hvrdc]
        exact hordc.trans (hrd2.trans (e2.trans hrv))
      · rw [hd, hrv] at hlt
        simpa [ltV] using hlt

/-- Output of the Latest-Value Attacher on the scenario target with the
valid-only source: one row, result 5. -/
def scenarioOutValid : DF :=
  ⟨[("idp", DType.numeric), ("t0", DType.dt), ("val", DType.numeric)],
   [[("idp", Value.int 1), ("t0", Value.date 20200110), ("val", Value.int 5)]]⟩

/-- Witness: the strict-priority theorem applied at the concrete scenario
with the valid-only source; the non-missing result 5 traces to the valid
row dated 2020-01-01, strictly before the reference date 2020-01-10. -/
theorem result_from_strictly_prior_record_witness :
    ∃ parsed v r0, parseDateCol scenarioDataValidOnly "t0" = .ok parsed ∧
      tjValid scenarioGoal parsed "idp" "t0" "val" "t0" "t0" = .ok v ∧
      r0 ∈ groupLatestRows v.rows "idp" ("t0" ++ "_x") ("t0" ++ "_y") ∧
      getV r0 "idp" = getV [("idp", Value.int 1), ("t0", Value.date 20200110),
        ("val", Value.int 5)] "idp" ∧
      getV [("idp", Value.int 1), ("t0", Value.date 20200110), ("val", Value.int 5)]
        "val" = getV r0 "val" ∧
      ∃ d rv, getV r0 ("t0" ++ "_y") = Value.date d ∧
        getV [("idp", Value.int 1), ("t0", Value.date 20200110), ("val", Value.int 5)]
          "t0" = Value.date rv ∧ d < rv :=
  result_from_strictly_prior_record.1 scenarioGoal scenarioDataValidOnly "t0" "t0" "val"
    none "idp" scenarioOutValid rfl (by decide) (by decide) (by decide) (by decide)
    (by decide)
    [("idp", Value.int 1), ("t0", Value.date 20200110), ("val", Value.int 5)]
    (by decide) (by decide)

theorem alookup_parse_cols {l : List (String × DType)} {sdc c : String} (h : c ≠ sdc) :
    alookup (l.map (fun p => if p.1 = sdc then (p.1, DType.dt) else p)) c = alookup l c := by
  induction l with
  | nil => rfl
  | cons p ps ih =>
    have hkey : (if p.1 = sdc then (p.1, DType.dt) else p).1 = p.1 := by split <;> rfl
    simp only [List.map_cons, alookup_cons, hkey]
    by_cases hp : p.1 = c
    · have hps : ¬(p.1 = sdc) := fun hh => h (hp ▸ hh)
      rw [if_pos hp, if_pos hp, if_neg hps]
    · rw [if_neg hp, if_neg hp]
      exact ih

/-- The dtype of the renamed result column of the latest stage is the
carried source column's selected dtype: the rename maps the carried
column b to rescol, b is not suffixed in the merge when it does not
collide with a target column, and selection defaults a missing dtype to
text. -/
theorem tjLatest_dtype {goal src : DF} {idc a b dcol rdc rescol : String} {latest : DF}
    (h : tjLatest goal src idc a b dcol rdc b rescol = .ok latest)
    (hWF : WF goal)
    (hat : TJNameAtoms goal idc a b dcol rdc b rescol)
    (hbg : b ∉ goal.colNames) (hbx : ∀ c ∈ goal.colNames, c ++ "_x" ≠ b)
    (hab : a ≠ b) (hay : a ++ "_y" ≠ b) :
    latest.dtypeOf rescol = some ((src.dtypeOf b).getD DType.text) := by
  obtain ⟨v, latest0, hv, hg, hlatdef⟩ := tjLatest_ok h
  obtain ⟨-, -, -, hl0def⟩ := groupIdxmax_ok hg
  obtain ⟨sel, help, hsel, hm, -, -, hvdef⟩ := tjValid_ok hv
  obtain ⟨-, hseldef⟩ := selectCols_ok hsel
  obtain ⟨-, -, hhelpdef⟩ := mergeLR_ok hm
  have hcond := (tjValid_ren_conditions hv hWF hat).2
  obtain ⟨hia, hib, -⟩ := hat
  have hanei : ¬(a = idc) := fun hh => hia hh.symm
  have hbnei : ¬(b = idc) := fun hh => hib hh.symm
  have hl0cols : latest0.cols = v.cols := by rw [hl0def]
  have hlatcols : latest.cols =
      renamePairs (renUpd [(rdc ++ "_x", "ref_date"), (b, rescol)]) v.cols := by
    rw [hlatdef]
    show renamePairs _ latest0.cols = _
    rw [hl0cols]
  have hvcols : v.cols = help.cols := by rw [hvdef]
  have hdrop : dropKeys [idc] sel.cols =
      [(a, (src.dtypeOf a).getD DType.text), (b, (src.dtypeOf b).getD DType.text)] := by
    rw [hseldef]
    simp [dropKeys, List.filter_cons, hanei, hbnei]
  have hleft : alookup (renamePairs (suffixName (mergeOverlap goal sel [idc] [idc]) "_x")
      goal.cols) b = none := by
    rw [alookup_eq_none_iff, names_renamePairs]
    intro hmem
    obtain ⟨c, hc, hcb⟩ := List.mem_map.mp hmem
    by_cases hco : c ∈ mergeOverlap goal sel [idc] [idc]
    · rw [suffixName_eq, if_pos hco] at hcb
      exact hbx c hc hcb
    · rw [suffixName_eq, if_neg hco] at hcb
      exact hbg (hcb ▸ hc)
  have hsfxa : suffixName (mergeOverlap goal sel [idc] [idc]) "_y" a ≠ b := by
    by_cases hco : a ∈ mergeOverlap goal sel [idc] [idc]
    · rw [suffixName_eq, if_pos hco]
      exact hay
    · rw [suffixName_eq, if_neg hco]
      exact hab
  have hsfxb : suffixName (mergeOverlap goal sel [idc] [idc]) "_y" b = b := by
    rw [suffixName_eq, if_neg (fun hco => hbg (mem_mergeOverlap.mp hco).1)]
  have hvb : alookup v.cols b = some ((src.dtypeOf b).getD DType.text) := by
    rw [hvcols, hhelpdef]
    show alookup (_ ++ _) b = _
    rw [collapsedKeys_single, hdrop, alookup_append_of_eq_none _ hleft]
    simp only [renamePairs, List.map_cons, List.map_nil, alookup_cons]
    rw [if_neg hsfxa, if_pos hsfxb]
  show alookup latest.cols rescol = _
  rw [hlatcols, alookup_renamePairs (fun k hk => (hcond k hk).2.1)]
  exact hvb

/-- C6: when the value column of the source table is numeric-typed, every
non-missing cell of the result column in the returned table of
add_latest_entry_before_date is a non-negative number: the result
column's dtype is the carried value column's, so the numeric branch runs
and keeps only rows whose result value is >= 0, and the final merge
copies result cells from kept rows only (or pads with a missing value). -/
theorem nonneg_numeric_results :
    ∀ (goal data : DF) (sdc rdc vc : String) (rcn : Option String) (idc : String)
      (out : DF),
      add_latest_entry_before_date goal data sdc rdc vc rcn idc = .ok out →
      WF goal →
      TJNameAtoms goal idc sdc vc sdc rdc vc (rcn.getD vc) →
      data.dtypeOf vc = some DType.numeric →
      vc ≠ sdc → sdc ++ "_y" ≠ vc →
      vc ∉ goal.colNames → (∀ c ∈ goal.colNames, c ++ "_x" ≠ vc) →
      "ref_date" ∉ goal.colNames → (rcn.getD vc) ∉ goal.colNames → rdc ≠ "ref_date" →
      ∀ o ∈ out.rows, getV o (rcn.getD vc) ≠ Value.na →
        ∃ i : Int, getV o (rcn.getD vc) = Value.int i ∧ 0 ≤ i := by
  intro goal data sdc rdc vc rcn idc out h hWF hat hnum hvs hsy hvg hvx hrf hrs hrdcref
    o ho hne
  obtain ⟨parsed, latest1, latest2, hp, hlat, hnf, hfin, -⟩ := value_op_ok h
  obtain ⟨-, -, hpcols, -⟩ := parseDateCol_ok hp
  have hpdt : parsed.dtypeOf vc = data.dtypeOf vc := by
    show alookup parsed.cols vc = _
    rw [hpcols]
    exact alookup_parse_cols hvs
  have hdt1 : latest1.dtypeOf (rcn.getD vc) = some DType.numeric := by
    rw [tjLatest_dtype hlat hWF hat hvg hvx (fun hh => hvs hh.symm) hsy, hpdt, hnum]
    rfl
  obtain ⟨-, -, -, hfilt⟩ := applyNumericFilter_ok hnf
  have hl2 := hfilt hdt1
  obtain ⟨-, -, -, -, -, -, -, -, hrdne, hresi, -, -, hresr, -, -, -, -, -⟩ := hat
  have hrr : "ref_date" ≠ rcn.getD vc := fun hh => hresr hh.symm
  obtain ⟨gr, hgr, -, -, hcase⟩ :=
    tjFinish_provenance hfin hWF hrf hrs hrdcref hrdne hresi hrr o ho
  rcases hcase with hna | ⟨r2, hr2, hval, -, -⟩
  · exact absurd hna hne
  · rw [hl2] at hr2
    have hge := (List.mem_filter.mp hr2).2
    cases hv2 : getV r2 (rcn.getD vc) with
    | int i =>
      rw [hv2] at hge
      simp only [geZero, decide_eq_true_eq] at hge
      exact ⟨i, hval.trans hv2, hge⟩
    | na =>
      rw [hv2] at hge
      simp [geZero] at hge
    | str t =>
      rw [hv2] at hge
      simp [geZero] at hge
    | date d =>
      rw [hv2] at hge
      simp [geZero] at hge

/-- Witness: the non-negativity theorem applied at the concrete scenario
with the valid-only numeric source; the non-missing result is 5 >= 0. -/
theorem nonneg_numeric_results_witness :
    ∃ i : Int, getV [("idp", Value.int 1), ("t0", Value.date 20200110),
      ("val", Value.int 5)] "val" = Value.int i ∧ 0 ≤ i :=
  nonneg_numeric_results scenarioGoal scenarioDataValidOnly "t0" "t0" "val" none "idp"
    scenarioOutValid rfl (by decide) (by decide) (by decide) (by decide) (by decide)
    (by decide) (by decide) (by decide) (by decide) (by decide)
    [("idp", Value.int 1), ("t0", Value.date 20200110), ("val", Value.int 5)]
    (by decide) (by decide)

/-- C8: with both code lists empty (absent lists are empty), the mask
matches no diagnostics row, the candidate set is empty, the valid and
latest stages carry no rows, and the final merge pads every target row,
so every cell of the result column of the returned table is missing. -/
theorem empty_codes_all_missing :
    ∀ (goal diag : DF) (ccol dcol rdc rescol idc : String) (out : DF),
      add_latest_diagnosis_entry goal diag ccol dcol [] [] rdc rescol idc = .ok out →
      WF goal →
      (∀ c ∈ goal.colNames, c ≠ dcol ++ "_y" ∧ c ++ "_x" ≠ dcol ++ "_y") →
      "ref_date" ∉ goal.colNames → rescol ∉ goal.colNames →
      rdc ≠ "ref_date" → "ref_date" ≠ idc → rescol ≠ idc → "ref_date" ≠ rescol →
      ∀ o ∈ out.rows, getV o rescol = Value.na := by
  intro goal diag ccol dcol rdc rescol idc out h hWF hgd hrf hrs hrdcref hri hresi hrr o ho
  obtain ⟨parsed, matched, latest, updated0, hp, hms, hlat, hfin, hrep, -⟩ := diag_op_ok h
  obtain ⟨hmrows, -⟩ := matchedStage_ok hms
  have hmnil : matched.rows = [] := by
    rw [hmrows]
    have hfl : parsed.rows.filter (fun r => maskVal [] [] (getV r ccol)) = [] :=
      List.filter_eq_nil_iff.mpr (fun r _ => by cases hgv : getV r ccol <;> simp [maskVal])
    rw [hfl]
    rfl
  obtain ⟨v, latest0, hv, hg, hlatdef⟩ := tjLatest_ok hlat
  obtain ⟨-, -, -, hl0def⟩ := groupIdxmax_ok hg
  obtain ⟨sel, help, hsel, hm, -, -, hvdef⟩ := tjValid_ok hv
  obtain ⟨-, hseldef⟩ := selectCols_ok hsel
  have hselnil : sel.rows = [] := by
    rw [hseldef]
    show matched.rows.map _ = []
    rw [hmnil]
    rfl
  obtain ⟨-, -, hhelpdef⟩ := mergeLR_ok hm
  have hhr : help.rows = goal.rows.flatMap
      (mergeRowsFor (mergeOverlap goal sel [idc] [idc]) (collapsedKeys [idc] [idc])
        [idc] [idc] sel.rows sel.cols) := by
    rw [hhelpdef]
  have hvnil : v.rows = [] := by
    rw [hvdef]
    show help.rows.filter _ = []
    apply List.filter_eq_nil_iff.mpr
    intro r hr
    rw [hhr] at hr
    obtain ⟨lr, hlr, hrin⟩ := List.mem_flatMap.mp hr
    rw [hselnil] at hrin
    rcases mergeRowsFor_mem hrin with ⟨-, rfl⟩ | ⟨rr, hrr, -, -⟩
    · intro hpred
      have hkeys : (dcol ++ "_y") ∉ rowKeys
          (renamePairs (suffixName (mergeOverlap goal sel [idc] [idc]) "_x") lr) := by
        rw [rowKeys_renamePairs]
        intro hmem
        obtain ⟨c, hc, hcb⟩ := List.mem_map.mp hmem
        have hcnames : c ∈ goal.colNames := by
          rw [← hWF lr hlr]
          exact hc
        by_cases hco : c ∈ mergeOverlap goal sel [idc] [idc]
        · rw [suffixName_eq, if_pos hco] at hcb
          exact (hgd c hcnames).2 hcb
        · rw [suffixName_eq, if_neg hco] at hcb
          exact (hgd c hcnames).1 hcb
      have hna : getV (renamePairs (suffixName (mergeOverlap goal sel [idc] [idc]) "_x") lr ++
          mergePad (mergeOverlap goal sel [idc] [idc]) (collapsedKeys [idc] [idc]) sel.cols)
          (dcol ++ "_y") = Value.na := by
        rw [getV_append_of_not_mem hkeys]
        exact getV_allNa mergePad_values
      rw [hna] at hpred
      exact Bool.false_ne_true hpred
    · exact absurd hrr (List.not_mem_nil rr)
  have hlnil : latest.rows = [] := by
    rw [hlatdef]
    show latest0.rows.map _ = []
    rw [hl0def]
    show (groupLatestRows v.rows _ _ _).map _ = []
    rw [hvnil]
    simp [groupLatestRows, keysOf]
  obtain ⟨-, houtdef⟩ := replaceBlankCol_ok hrep
  rw [houtdef] at ho
  obtain ⟨o0, ho0, rfl⟩ := List.mem_map.mp ho
  rw [getV_replaceBlank_self]
  obtain ⟨gr, -, -, -, hcase⟩ :=
    tjFinish_provenance hfin hWF hrf hrs hrdcref hri hresi hrr o0 ho0
  rcases hcase with hna | ⟨r2, hr2, -, -, -⟩
  · rw [hna]
    rfl
  · rw [hlnil] at hr2
    exact absurd hr2 (List.not_mem_nil r2)

/-- Scenario diagnostics frame for the empty-code-lists witness: one
coded row before the reference date, with the date column named like the
reference column so the call succeeds. -/
def diagScenario : DF :=
  ⟨[("idp", DType.numeric), ("code", DType.text), ("t0", DType.text)],
   [[("idp", Value.int 1), ("code", Value.str "I10"), ("t0", Value.str "20200101")]]⟩

/-- Witness: the empty-code-lists theorem applied at the concrete
scenario; the single output row's result cell is missing even though a
coded prior row exists. -/
theorem empty_codes_all_missing_witness :
    getV [("idp", Value.int 1), ("t0", Value.date 20200110), ("diagnosis", Value.na)]
      "diagnosis" = Value.na :=
  empty_codes_all_missing scenarioGoal diagScenario "code" "t0" "t0" "diagnosis" "idp"
    ⟨[("idp", DType.numeric), ("t0", DType.dt), ("diagnosis", DType.text)],
     [[("idp", Value.int 1), ("t0", Value.date 20200110), ("diagnosis", Value.na)]]⟩
    rfl (by decide) (by decide) (by decide) (by decide) (by decide) (by decide)
    (by decide) (by decide)
    [("idp", Value.int 1), ("t0", Value.date 20200110), ("diagnosis", Value.na)]
    (by decide)

theorem pairwise_key_eq {α γ : Type} {l : List α} {g : α → γ}
    (hpw : l.Pairwise (fun a b => g a ≠ g b)) {a b : α}
    (ha : a ∈ l) (hb : b ∈ l) (hg : g a = g b) : a = b := by
  induction l with
  | nil => exact absurd ha (List.not_mem_nil a)
  | cons x t ih =>
    obtain ⟨hx, hpt⟩ := List.pairwise_cons.mp hpw
    rcases List.mem_cons.mp ha with rfl | ha2
    · rcases List.mem_cons.mp hb with rfl | hb2
      · rfl
      · exact absurd hg (hx b hb2)
    · rcases List.mem_cons.mp hb with rfl | hb2
      · exact absurd hg.symm (hx a ha2)
      · exact ih hpt ha2 hb2

/-- C1: the numeric non-negative filter runs on the already-selected
per-group latest rows, after latest-record selection and with no
fallback: on every successful call with a numeric value column, every
output row whose group-latest eligible source row (the idxmax-selected
row of the valid stage for that row's id and reference date) carries a
negative value has a missing result cell — regardless of any earlier
valid rows in the group, which are never consulted. -/
theorem negative_filter_after_selection :
    ∀ (goal data : DF) (sdc rdc vc : String) (rcn : Option String) (idc : String)
      (out : DF),
      add_latest_entry_before_date goal data sdc rdc vc rcn idc = .ok out →
      WF goal →
      TJNameAtoms goal idc sdc vc sdc rdc vc (rcn.getD vc) →
      data.dtypeOf vc = some DType.numeric →
      vc ≠ sdc → sdc ++ "_y" ≠ vc →
      vc ∉ goal.colNames → (∀ c ∈ goal.colNames, c ++ "_x" ≠ vc) →
      "ref_date" ∉ goal.colNames → (rcn.getD vc) ∉ goal.colNames → rdc ≠ "ref_date" →
      ∃ parsed v, parseDateCol data sdc = .ok parsed ∧
        tjValid goal parsed idc sdc vc sdc rdc = .ok v ∧
        ∀ o ∈ out.rows, ∀ r0 ∈ groupLatestRows v.rows idc (rdc ++ "_x") (sdc ++ "_y"),
          getV r0 idc = getV o idc → getV r0 (rdc ++ "_x") = getV o rdc →
          (∃ i : Int, getV r0 vc = Value.int i ∧ i < 0) →
          getV o (rcn.getD vc) = Value.na := by
  intro goal data sdc rdc vc rcn idc out h hWF hat hnum hvs hsy hvg hvx hrf hrs hrdcref
  obtain ⟨parsed, latest1, latest2, hp, hlat, hnf, hfin, -⟩ := value_op_ok h
  obtain ⟨-, -, hpcols, -⟩ := parseDateCol_ok hp
  have hpdt : parsed.dtypeOf vc = data.dtypeOf vc := by
    show alookup parsed.cols vc = _
    rw [hpcols]
    exact alookup_parse_cols hvs
  have hdt1 : latest1.dtypeOf (rcn.getD vc) = some DType.numeric := by
    rw [tjLatest_dtype hlat hWF hat hvg hvx (fun hh => hvs hh.symm) hsy, hpdt, hnum]
    rfl
  obtain ⟨-, -, -, hfilt⟩ := applyNumericFilter_ok hnf
  have hl2 := hfilt hdt1
  obtain ⟨v, hv, -, -, hprov⟩ := tjLatest_rows_transport hlat hWF hat
  obtain ⟨-, -, -, -, -, -, -, -, hrdne, hresi, -, -, hresr, -, -, -, -, -⟩ := hat
  have hrr : "ref_date" ≠ rcn.getD vc := fun hh => hresr hh.symm
  refine ⟨parsed, v, hp, hv, ?_⟩
  rintro o ho r0 hr0 hid hrd ⟨i, hneg, hlt⟩
  obtain ⟨gr, hgr, hordc, hoidc, hcase⟩ :=
    tjFinish_provenance hfin hWF hrf hrs hrdcref hrdne hresi hrr o ho
  rcases hcase with hna | ⟨r2, hr2, hval, hid2, hrd2⟩
  · exact hna
  · exfalso
    rw [hl2] at hr2
    have hge := (List.mem_filter.mp hr2).2
    have hr2m : r2 ∈ latest1.rows := (List.mem_filter.mp hr2).1
    obtain ⟨r0h, hr0h, e1, e2, e3, e4⟩ := hprov r2 hr2m
    have hkey : (fun r => (getV r idc, getV r (rdc ++ "_x"))) r0 =
        (fun r => (getV r idc, getV r (rdc ++ "_x"))) r0h := by
      show (getV r0 idc, getV r0 (rdc ++ "_x")) = (getV r0h idc, getV r0h (rdc ++ "_x"))
      rw [hid, hrd, hoidc, hordc, hid2, hrd2, e1, e2]
    have hr00 : r0 = r0h :=
      @pairwise_key_eq _ _ _ (fun r => (getV r idc, getV r (rdc ++ "_x")))
        (groupLatestRows_pairwise v.rows idc (rdc ++ "_x") (sdc ++ "_y")) r0 r0h
        hr0 hr0h hkey
    rw [e3, ← hr00, hneg] at hge
    simp only [geZero, decide_eq_true_eq] at hge
    omega

/-- Witness: the negative-latest theorem applied at the concrete
scenario — source rows dated 20200101 (value 5) and 20200105 (value
-2), reference date 2020-01-10.  The group-latest valid row is the
negative one, and the theorem forces the single output row's result
cell to be missing, with no fallback to the earlier valid value 5. -/
theorem negative_filter_after_selection_witness :
    getV [("idp", Value.int 1), ("t0", Value.date 20200110), ("val", Value.na)] "val"
      = Value.na := by
  obtain ⟨parsed, v, hp, hv, hmain⟩ :=
    negative_filter_after_selection scenarioGoal scenarioData "t0" "t0" "val" none "idp"
      scenarioOut rfl (by decide) (by decide) (by decide) (by decide) (by decide)
      (by decide) (by decide) (by decide) (by decide) (by decide)
  have hp2 : parsed = scenarioParsed := by
    have h2 : Except.ok parsed = Except.ok scenarioParsed :=
      hp.symm.trans (by rfl)
    injection h2
  subst hp2
  have hv2 : v = scenarioValid := by
    have h2 : Except.ok v = Except.ok scenarioValid :=
      hv.symm.trans (by rfl)
    injection h2
  subst hv2
  exact hmain
    [("idp", Value.int 1), ("t0", Value.date 20200110), ("val", Value.na)] (by decide)
    [("idp", Value.int 1), ("t0_x", Value.date 20200110),
     ("t0_y", Value.date 20200105), ("val", Value.int (-2))]
    (by decide) (by decide) (by decide) ⟨-2, by decide, by decide⟩

end TFM
